import Mathlib

/-!
Verification of the streak/history engine of a daily habit tracker
(`src/lib/creatine.ts`).

The development shallowly embeds the TypeScript source:

* A JavaScript `Date` anchored at local noon is modelled as an `Int` day
  number (days since 1970-01-01 in the proleptic Gregorian calendar).
  Anchoring at noon makes the local calendar components of the date a pure
  function of the day number, and `setDate(getDate() + delta)` becomes
  `(· + delta)` on day numbers.  The component conversions follow the
  ECMAScript `MakeDay` / `YearFromTime` semantics, computed with the
  standard floor-division algorithms for the civil calendar.
* JavaScript strings are modelled as Lean `String` (`List Char` data);
  `String(n)`, `padStart`, `split('-')`, `Number(s)` and the `<` comparison
  on strings are given explicit executable models below.
* JSON values (the argument of `coerceSave`) are an inductive `Json`;
  property access and `Object.entries` are modelled on it.  JSON numbers
  are modelled as `Int`: every number the source stores or inspects is an
  integer timestamp or a version tag, and no arithmetic is performed on
  them.  `Date.now()` is passed in explicitly as a `now` parameter.
* The two source loops that walk day-by-day (`computeCurrentStreak`'s
  `while (true)` and `buildHistoryKeysInclusive`'s `for`) are written with
  an explicit iteration budget that provably covers the number of
  iterations the JavaScript loop performs; lemmas below establish that the
  budget is never exhausted.
-/

set_option maxRecDepth 4000

/-! ## Civil calendar model (ECMAScript `Date`, local time, noon anchored) -/

/-- Proleptic Gregorian leap-year rule, as used by ECMAScript calendar
arithmetic. -/
def isLeapYear (y : Int) : Prop := y % 4 = 0 ∧ (y % 100 ≠ 0 ∨ y % 400 = 0)

instance (y : Int) : Decidable (isLeapYear y) := by unfold isLeapYear; infer_instance

/-- Number of days of month `m` (1-based) in year `y`. -/
def daysInMonth (y m : Int) : Int :=
  if m = 2 then (if isLeapYear y then 29 else 28)
  else if m = 4 ∨ m = 6 ∨ m = 9 ∨ m = 11 then 30 else 31

/-- The triple `(y, m, d)` denotes a real calendar day. -/
def ValidCivil (y m d : Int) : Prop := 1 ≤ m ∧ m ≤ 12 ∧ 1 ≤ d ∧ d ≤ daysInMonth y m

instance (y m d : Int) : Decidable (ValidCivil y m d) := by unfold ValidCivil; infer_instance

/-- Day number (days since 1970-01-01) of the civil date `(y, m, d)`;
floor-division form of the standard civil-calendar conversion, matching
ECMAScript day-number arithmetic.  Int `/` is Euclidean division, which for
the positive divisors used here coincides with floor division. -/
def daysFromCivil (y m d : Int) : Int :=
  let yy := y - (if m ≤ 2 then 1 else 0)
  let era := yy / 400
  let yoe := yy - era * 400
  let doy := (153 * (m + (if m > 2 then -3 else 9)) + 2) / 5 + d - 1
  let doe := yoe * 365 + yoe / 4 - yoe / 100 + doy
  era * 146097 + doe - 719468

/-- Civil date `(y, m, d)` of a day number; inverse of `daysFromCivil`,
matching the calendar components ECMAScript derives from a timestamp. -/
def civilFromDays (z : Int) : Int × Int × Int :=
  let z2 := z + 719468
  let era := z2 / 146097
  let doe := z2 - era * 146097
  let yoe := (doe - doe / 1460 + doe / 36524 - doe / 146096) / 365
  let y := yoe + era * 400
  let doy := doe - (365 * yoe + yoe / 4 - yoe / 100)
  let mp := (5 * doy + 2) / 153
  let d := doy - (153 * mp + 2) / 5 + 1
  let m := mp + (if mp < 10 then 3 else -9)
  (y + (if m ≤ 2 then 1 else 0), m, d)

/-- Model of the ECMAScript constructor call `new Date(y, m1, d, 12, 0, 0, 0)`
(month argument `m1` is 0-based), returning the noon-anchored day number.
Follows `MakeDay`: the month is normalized into the year by floor
division, and the day count is added from day 1 of that month; a year
argument between 0 and 99 is interpreted as 1900 + y. -/
def jsDateNoon (y m1 d : Int) : Int :=
  let ya := if 0 ≤ y ∧ y ≤ 99 then y + 1900 else y
  let ym := ya + m1 / 12
  let mn := m1 % 12
  daysFromCivil ym (mn + 1) 1 + (d - 1)

/-! ## Decimal string model (JavaScript `String(n)`, `padStart`, `Number`, `split`) -/

/-- Decimal digit character. -/
def digitChar (n : Nat) : Char :=
  match n with
  | 0 => '0' | 1 => '1' | 2 => '2' | 3 => '3' | 4 => '4'
  | 5 => '5' | 6 => '6' | 7 => '7' | 8 => '8' | 9 => '9'
  | _ => '0'

/-- Decimal digits of `n`, most significant first; the `fuel` argument only
bounds the recursion depth (any `fuel > n` gives the digits of `n`). -/
def natDigitsGo : Nat → Nat → List Char
  | 0, _ => []
  | fuel+1, n => if n < 10 then [digitChar n] else natDigitsGo fuel (n / 10) ++ [digitChar (n % 10)]

/-- Decimal digit string of a natural number (model of JS `String(n)` for
non-negative integers). -/
def natDigits (n : Nat) : List Char := natDigitsGo (n + 1) n

/-- Model of JavaScript `String(i)` for an integer. -/
def intToString (i : Int) : String :=
  if i < 0 then ⟨'-' :: natDigits (-i).toNat⟩ else ⟨natDigits i.toNat⟩

/-- Model of `String(n).padStart(2, '0')` from the source's `pad2`. -/
def pad2 (n : Int) : String :=
  let s := intToString n
  ⟨List.replicate (2 - s.data.length) '0' ++ s.data⟩

def isDigitCh (c : Char) : Bool := 48 ≤ c.toNat && c.toNat ≤ 57

def digitVal (c : Char) : Nat := c.toNat - 48

/-- Numeric value of a list of decimal digit characters. -/
def digitsToNat (cs : List Char) : Nat := cs.foldl (fun a c => 10 * a + digitVal c) 0

/-- Model of JavaScript `Number(s)` restricted to the non-empty all-digit
strings produced by splitting a `YYYY-MM-DD` key.  (On other strings
`Number` yields `NaN` and the subsequent `Date` is invalid; that branch is
unreachable at every call site, which only passes syntactically valid date
keys, and is modelled as 0.) -/
def jsNumber (cs : List Char) : Int :=
  if cs ≠ [] ∧ cs.all isDigitCh then (digitsToNat cs : Int) else 0

/-- Model of JavaScript `s.split('-')` on the character list of `s`. -/
def splitDash : List Char → List (List Char)
  | [] => [[]]
  | c :: rest =>
    if c = '-' then [] :: splitDash rest
    else
      match splitDash rest with
      | t :: ts => (c :: t) :: ts
      | [] => [[c]]

/-- Model of the JavaScript `<` comparison on strings: lexicographic by
code unit.  (All strings compared by the source are ASCII date keys, where
code-unit order and code-point order agree.) -/
def jsStrLt : List Char → List Char → Bool
  | [], [] => false
  | [], _ :: _ => true
  | _ :: _, [] => false
  | x :: xs, y :: ys =>
    if x.toNat < y.toNat then true
    else if y.toNat < x.toNat then false
    else jsStrLt xs ys

/-! ## JSON value model -/

/-- JSON-parseable JavaScript values, the possible inputs of `coerceSave`.
Object fields are listed in insertion order; objects produced by
`JSON.parse` have pairwise distinct keys. -/
inductive Json where
  | null : Json
  | bool : Bool → Json
  | num : Int → Json
  | str : String → Json
  | arr : List Json → Json
  | obj : List (String × Json) → Json

/-- Values for which `typeof v === 'object' && v` holds: objects and
arrays.  (`null` has typeof `'object'` but is falsy, so it is rejected by
both guards in the source that this predicate models.) -/
def isObjectLike : Json → Bool
  | Json.obj _ => true
  | Json.arr _ => true
  | _ => false

/-- Property access `j[name]`; `none` models `undefined`.  Arrays have no
own properties named `startDate`, `taken`, `version` or `updatedAt`, the
only names ever accessed. -/
def jsGet (j : Json) (name : String) : Option Json :=
  match j with
  | Json.obj fields => fields.lookup name
  | _ => none

/-- Model of `Object.entries`: for objects the fields in insertion order,
for arrays the elements keyed by their decimal indices. -/
def entriesOf : Json → List (String × Json)
  | Json.obj fields => fields
  | Json.arr xs => xs.enum.map (fun p => (⟨natDigits p.1⟩, p.2))
  | _ => []

/-- Model of the JavaScript assignment `o[k] = v` on an object represented
as an insertion-ordered association list: overwrite in place if the key is
present, append otherwise. -/
def jsAssign {α : Type} : List (String × α) → String → α → List (String × α)
  | [], k, v => [(k, v)]
  | (k0, v0) :: rest, k, v =>
    if k0 = k then (k, v) :: rest else (k0, v0) :: jsAssign rest k v

/-! ## Source functions (`src/lib/creatine.ts`) -/

/-- Source `isISODateKey` on the character data of a string: the regular
expression `^\d{4}-\d{2}-\d{2}$`. -/
def isDateKeyChars : List Char → Bool
  | [a, b, c, d, e, f, g, h, i, j] =>
    isDigitCh a && isDigitCh b && isDigitCh c && isDigitCh d && (e = '-') &&
    isDigitCh f && isDigitCh g && (h = '-') && isDigitCh i && isDigitCh j
  | _ => false

/-- Source `isISODateKey` restricted to string arguments (object keys are
always strings, so the `typeof v === 'string'` guard is satisfied). -/
def isDateKeyStr (s : String) : Bool := isDateKeyChars s.data

/-- Source `isISODateKey : unknown -> boolean` on a JSON value. -/
def isISODateKey : Json → Bool
  | Json.str s => isDateKeyStr s
  | _ => false

/-- Source `toISODateKeyLocal`: local calendar components of the (noon
anchored) day number, formatted as `${y}-${pad2 m}-${pad2 d}`. -/
def toISODateKeyLocal (z : Int) : String :=
  match civilFromDays z with
  | (y, m, d) => intToString y ++ "-" ++ pad2 m ++ "-" ++ pad2 d

/-- Source `makeLocalNoonDateFromISO`: split the key on `'-'`, convert the
first three parts with `Number`, and build `new Date(y, m - 1, d, 12, 0, 0, 0)`.
A key with fewer than three parts would produce an invalid date in
JavaScript; that unreachable branch is modelled as day 0. -/
def makeLocalNoonDateFromISO (key : String) : Int :=
  match splitDash key.data with
  | yS :: mS :: dS :: _ => jsDateNoon (jsNumber yS) (jsNumber mS - 1) (jsNumber dS)
  | _ => 0

/-- Source `addDaysLocalNoon`: `setDate(getDate() + deltaDays)` on a noon
anchored date shifts the day number by `deltaDays`. -/
def addDaysLocalNoon (z deltaDays : Int) : Int := z + deltaDays

/-- Source `compareISODate`: `a < b ? -1 : a > b ? 1 : 0` with JavaScript
string comparison. -/
def compareISODate (a b : String) : Int :=
  if jsStrLt a.data b.data then -1 else if jsStrLt b.data a.data then 1 else 0

/-- Source `SaveDataV2`.  The `version` field is the literal `2` in the
TypeScript type and is therefore not stored; `TakenAt = number | null` is
`Option Int` (`none` = `null` = unknown time).  The `taken` object is an
insertion-ordered association list with pairwise distinct keys. -/
structure SaveData where
  startDate : String
  taken : List (String × Option Int)
  updatedAt : Int
deriving DecidableEq, Repr

/-- Source `coerceSave`; `now` models the `Date.now()` default for a
missing or non-numeric `updatedAt`.  Returns `none` where the source
returns `null`. -/
def coerceSave (input : Json) (now : Int) : Option SaveData :=
  if isObjectLike input = false then none else
  match jsGet input "startDate" with
  | some (Json.str sd) =>
    if isDateKeyStr sd = false then none else
    match jsGet input "taken" with
    | some takenRaw =>
      if isObjectLike takenRaw = false then none else
      let updAt : Int :=
        match jsGet input "updatedAt" with
        | some (Json.num t) => t
        | _ => now
      match jsGet input "version" with
      | some (Json.num 2) =>
        let taken := (entriesOf takenRaw).foldl
          (fun acc p =>
            if isDateKeyStr p.1 = false then acc
            else
              match p.2 with
              | Json.num t => jsAssign acc p.1 (some t)
              | Json.null => jsAssign acc p.1 none
              | _ => acc)
          []
        some { startDate := sd, taken := taken, updatedAt := updAt }
      | some (Json.num 1) =>
        let taken := (entriesOf takenRaw).foldl
          (fun acc p =>
            if isDateKeyStr p.1 = false then acc
            else
              match p.2 with
              | Json.bool true => jsAssign acc p.1 none
              | _ => acc)
          []
        some { startDate := sd, taken := taken, updatedAt := updAt }
      | _ => none
    | none => none
  | _ => none

/-- Source `ensureStartDate`.  The guard `!save.startDate` is true exactly
for the empty string, the only falsy string. -/
def ensureStartDate (save : SaveData) (candidate : String) : SaveData :=
  if save.startDate = "" then { save with startDate := candidate }
  else if compareISODate candidate save.startDate < 0 then { save with startDate := candidate }
  else save

/-- Loop of `buildHistoryKeysInclusive`: `for (let d = endD; d >= startD; d = addDays(d, -1))`.
The noon-anchored comparison `d >= startD` on `Date` timestamps is the
comparison of day numbers.  The first argument bounds the iteration count;
the caller passes `endD - startD + 1` (clamped at 0), which the loop never
exceeds since `z` decreases by one per iteration. -/
def historyLoop (startD : Int) : Nat → Int → List String
  | 0, _ => []
  | fuel+1, z => if z < startD then [] else toISODateKeyLocal z :: historyLoop startD fuel (z - 1)

/-- Source `buildHistoryKeysInclusive`. -/
def buildHistoryKeysInclusive (startKey endKey : String) : List String :=
  let startD := makeLocalNoonDateFromISO startKey
  let endD := makeLocalNoonDateFromISO endKey
  historyLoop startD (endD + 1 - startD).toNat endD

/-- Source `StreakInfo`.  The field `stop` is the source field `end`
(a reserved word in Lean); `length` is a count of days, hence `Nat`. -/
structure StreakInfo where
  length : Nat
  start : Option String
  stop : Option String
deriving DecidableEq, Repr

/-- Source `isTaken`: `Object.prototype.hasOwnProperty.call(save.taken, key)`. -/
def isTaken (save : SaveData) (key : String) : Bool :=
  save.taken.any (fun p => p.1 = key)

/-- The `while (true)` walk of `computeCurrentStreak`: count consecutive
taken days moving backwards from day `z`.  The fuel bounds the iteration
count; the caller passes `save.taken.length + 1` which always suffices,
because the visited keys are pairwise distinct (distinct day numbers have
distinct keys, `toISODateKeyLocal_inj` below) and every counted day is a
key of `save.taken`. -/
def streakWalk (save : SaveData) : Nat → Int → Nat
  | 0, _ => 0
  | fuel+1, z =>
    if isTaken save (toISODateKeyLocal z) then streakWalk save fuel (z - 1) + 1 else 0

/-- Source `computeCurrentStreak`. -/
def computeCurrentStreak (save : SaveData) (today : String) : StreakInfo :=
  let todayTaken := isTaken save today
  let startCursor :=
    if todayTaken then makeLocalNoonDateFromISO today
    else addDaysLocalNoon (makeLocalNoonDateFromISO today) (-1)
  let startKey := toISODateKeyLocal startCursor
  if isTaken save startKey = false then { length := 0, start := none, stop := none } else
  let len := streakWalk save (save.taken.length + 1) startCursor
  { length := len
    start := some (toISODateKeyLocal (addDaysLocalNoon (startCursor - len) 1))
    stop := some (toISODateKeyLocal startCursor) }

/-- Mutable scan state of `computeBestStreak`. -/
structure BestScanState where
  bestLen : Nat
  bestStart : Option String
  bestEnd : Option String
  runLen : Nat
  runStart : Option String
deriving DecidableEq, Repr

/-- Body of the `for (const k of keysAsc)` loop of `computeBestStreak`. -/
def bestScanStep (save : SaveData) (st : BestScanState) (k : String) : BestScanState :=
  if isTaken save k then
    let runStart := if st.runLen = 0 then some k else st.runStart
    let runLen := st.runLen + 1
    if runLen > st.bestLen then
      { bestLen := runLen, bestStart := runStart, bestEnd := some k
        runLen := runLen, runStart := runStart }
    else
      { st with runLen := runLen, runStart := runStart }
  else
    { st with runLen := 0, runStart := none }

/-- Source `computeBestStreak`. -/
def computeBestStreak (save : SaveData) (startKey endKey : String) : StreakInfo :=
  let keysAsc := (buildHistoryKeysInclusive startKey endKey).reverse
  let st := keysAsc.foldl (bestScanStep save)
    { bestLen := 0, bestStart := none, bestEnd := none, runLen := 0, runStart := none }
  { length := st.bestLen, start := st.bestStart, stop := st.bestEnd }

/-! Sanity checks of the embedding on concrete values. -/

example : daysFromCivil 1970 1 1 = 0 := by decide
example : daysFromCivil 2024 6 1 = 19875 := by decide
example : civilFromDays 19875 = (2024, 6, 1) := by decide
example : toISODateKeyLocal 19875 = "2024-06-01" := by decide
example : makeLocalNoonDateFromISO "2024-06-01" = 19875 := by decide
example : toISODateKeyLocal (-1) = "1969-12-31" := by decide
example : isDateKeyStr "2024-06-01" = true := by decide
example : isDateKeyStr "2024-6-1" = false := by decide
example : compareISODate "2024-05-31" "2024-06-01" = -1 := by decide
example : buildHistoryKeysInclusive "2024-05-30" "2024-06-01" =
    ["2024-06-01", "2024-05-31", "2024-05-30"] := by decide

/-! ## Basic facts about the string comparison -/

theorem jsStrLt_irrefl (a : List Char) : jsStrLt a a = false := by
  induction a with
  | nil => rfl
  | cons x xs ih => simp [jsStrLt, ih]

theorem compareISODate_self (a : String) : compareISODate a a = 0 := by
  simp [compareISODate, jsStrLt_irrefl]

theorem compareISODate_neg (a b : String) (h : jsStrLt a.data b.data = true) :
    compareISODate a b = -1 := by
  simp [compareISODate, h]

theorem compareISODate_nonneg (a b : String) (h : jsStrLt a.data b.data = false) :
    compareISODate a b = if jsStrLt b.data a.data then 1 else 0 := by
  simp [compareISODate, h]

/-- Unfolding of `ensureStartDate` for a record with a non-empty start date. -/
theorem ensureStartDate_eq (save : SaveData) (candidate : String)
    (hne : save.startDate ≠ "") :
    ensureStartDate save candidate =
      if jsStrLt candidate.data save.startDate.data then
        { save with startDate := candidate }
      else save := by
  unfold ensureStartDate
  rw [if_neg hne]
  by_cases h : jsStrLt candidate.data save.startDate.data = true
  · rw [if_pos h, if_pos (by rw [compareISODate_neg _ _ h]; norm_num)]
  · have h2 : jsStrLt candidate.data save.startDate.data = false := by
      revert h; cases jsStrLt candidate.data save.startDate.data <;> simp
    rw [h2, if_neg (by rw [compareISODate_nonneg _ _ h2]; split <;> norm_num), if_neg (by simp)]

/-! ## C6: ensureStartDate is idempotent, monotone, and takes the minimum -/

theorem isDateKeyStr_ne_empty (s : String) (h : isDateKeyStr s = true) : s ≠ "" := by
  intro hs
  rw [hs] at h
  simp [isDateKeyStr, isDateKeyChars] at h

/-- C6.  For a record whose `startDate` is a date key (hence non-empty),
`ensureStartDate` returns the earlier of the stored `startDate` and the
candidate (by `compareISODate`); it is idempotent; its result is never
later than either input; and it is a no-op when the candidate is not
earlier. -/
theorem ensureStartDate_spec (save : SaveData) (candidate : String)
    (hsd : isDateKeyStr save.startDate = true) :
    (ensureStartDate save candidate).startDate =
      (if compareISODate candidate save.startDate < 0 then candidate else save.startDate) ∧
    ensureStartDate (ensureStartDate save candidate) candidate = ensureStartDate save candidate ∧
    compareISODate (ensureStartDate save candidate).startDate save.startDate ≤ 0 ∧
    compareISODate (ensureStartDate save candidate).startDate candidate ≤ 0 ∧
    (0 ≤ compareISODate candidate save.startDate → ensureStartDate save candidate = save) := by
  have hne : save.startDate ≠ "" := isDateKeyStr_ne_empty _ hsd
  rw [ensureStartDate_eq save candidate hne]
  by_cases h : jsStrLt candidate.data save.startDate.data = true
  · rw [if_pos h]
    have hcmp : compareISODate candidate save.startDate = -1 := compareISODate_neg _ _ h
    refine ⟨by rw [hcmp]; norm_num, ?_, ?_, ?_, ?_⟩
    · by_cases hcn : candidate = ""
      · unfold ensureStartDate
        simp [hcn]
      · rw [ensureStartDate_eq _ _ (by simpa using hcn)]
        simp [jsStrLt_irrefl]
    · show compareISODate candidate save.startDate ≤ 0
      rw [hcmp]; norm_num
    · show compareISODate candidate candidate ≤ 0
      rw [compareISODate_self]
    · intro h0
      rw [hcmp] at h0
      norm_num at h0
  · have h2 : jsStrLt candidate.data save.startDate.data = false := by
      revert h; cases jsStrLt candidate.data save.startDate.data <;> simp
    rw [if_neg (by simp [h2])]
    have hcmp : compareISODate candidate save.startDate =
        if jsStrLt save.startDate.data candidate.data then 1 else 0 :=
      compareISODate_nonneg _ _ h2
    refine ⟨?_, ?_, ?_, ?_, fun _ => rfl⟩
    · rw [hcmp]
      split <;> norm_num
    · rw [ensureStartDate_eq _ _ hne, if_neg (by simp [h2])]
    · rw [compareISODate_self]
    · unfold compareISODate
      rw [h2]
      split <;> norm_num

/-- Witness for `ensureStartDate_spec` at a concrete record and candidate. -/
theorem ensureStartDate_spec_witness :
    isDateKeyStr ({ startDate := "2024-06-01", taken := [], updatedAt := 0 } : SaveData).startDate = true ∧
    (ensureStartDate { startDate := "2024-06-01", taken := [], updatedAt := 0 } "2024-05-20").startDate =
      (if compareISODate "2024-05-20" "2024-06-01" < 0 then "2024-05-20" else "2024-06-01") :=
  ⟨by decide,
   (ensureStartDate_spec { startDate := "2024-06-01", taken := [], updatedAt := 0 } "2024-05-20"
     (by decide)).1⟩

/-! ## C9: shape invariant of StreakInfo results -/

/-- Shape invariant claimed for every `StreakInfo` the engine returns:
`start` and `stop` are both absent exactly when the length is zero, and
both present otherwise (the length, a `Nat`, is non-negative by type). -/
def ShapeOK (r : StreakInfo) : Prop :=
  (r.length = 0 ∧ r.start = none ∧ r.stop = none) ∨
  (0 < r.length ∧ (∃ a, r.start = some a) ∧ ∃ b, r.stop = some b)

/-- Invariant maintained by the `computeBestStreak` scan. -/
def BestInv (st : BestScanState) : Prop :=
  ((st.bestLen = 0 ∧ st.bestStart = none ∧ st.bestEnd = none) ∨
   (0 < st.bestLen ∧ (∃ a, st.bestStart = some a) ∧ ∃ b, st.bestEnd = some b)) ∧
  (0 < st.runLen → ∃ a, st.runStart = some a)

theorem bestScanStep_inv (save : SaveData) (st : BestScanState) (k : String)
    (h : BestInv st) : BestInv (bestScanStep save st k) := by
  obtain ⟨hb, hr⟩ := h
  have hrs : ∃ a, (if st.runLen = 0 then some k else st.runStart) = some a := by
    by_cases h0 : st.runLen = 0
    · exact ⟨k, by rw [if_pos h0]⟩
    · obtain ⟨a, ha⟩ := hr (by omega)
      exact ⟨a, by rw [if_neg h0, ha]⟩
  unfold bestScanStep
  by_cases ht : isTaken save k
  · rw [if_pos ht]
    by_cases hgt : st.runLen + 1 > st.bestLen
    · rw [if_pos hgt]
      exact ⟨Or.inr ⟨Nat.succ_pos st.runLen, hrs, ⟨k, rfl⟩⟩, fun _ => hrs⟩
    · rw [if_neg hgt]
      exact ⟨hb, fun _ => hrs⟩
  · rw [if_neg ht]
    exact ⟨hb, fun h => absurd h (Nat.lt_irrefl 0)⟩

theorem bestScan_fold_inv (save : SaveData) (ks : List String) (st : BestScanState)
    (h : BestInv st) : BestInv (ks.foldl (bestScanStep save) st) := by
  induction ks generalizing st with
  | nil => exact h
  | cons k ks ih => exact ih _ (bestScanStep_inv save st k h)

theorem streakWalk_pos (save : SaveData) (fuel : Nat) (z : Int)
    (h : isTaken save (toISODateKeyLocal z) = true) :
    0 < streakWalk save (fuel + 1) z := by
  unfold streakWalk
  rw [if_pos h]
  omega

/-- C9.  Both streak computations return a `StreakInfo` satisfying the
shape invariant, for every record and all argument keys. -/
theorem streak_shape_invariant (save : SaveData) (today startKey endKey : String) :
    ShapeOK (computeCurrentStreak save today) ∧ ShapeOK (computeBestStreak save startKey endKey) := by
  constructor
  · unfold computeCurrentStreak
    dsimp only
    by_cases hg : isTaken save (toISODateKeyLocal
        (if isTaken save today = true then makeLocalNoonDateFromISO today
         else addDaysLocalNoon (makeLocalNoonDateFromISO today) (-1))) = false
    · rw [if_pos hg]
      exact Or.inl ⟨rfl, rfl, rfl⟩
    · rw [if_neg hg]
      have ht : isTaken save (toISODateKeyLocal
          (if isTaken save today = true then makeLocalNoonDateFromISO today
           else addDaysLocalNoon (makeLocalNoonDateFromISO today) (-1))) = true := by
        revert hg
        cases isTaken save (toISODateKeyLocal
          (if isTaken save today = true then makeLocalNoonDateFromISO today
           else addDaysLocalNoon (makeLocalNoonDateFromISO today) (-1))) <;> simp
      exact Or.inr ⟨streakWalk_pos save _ _ ht, ⟨_, rfl⟩, ⟨_, rfl⟩⟩
  · unfold computeBestStreak
    have h := bestScan_fold_inv save (buildHistoryKeysInclusive startKey endKey).reverse
      { bestLen := 0, bestStart := none, bestEnd := none, runLen := 0, runStart := none }
      ⟨Or.inl ⟨rfl, rfl, rfl⟩, fun h => absurd h (Nat.lt_irrefl 0)⟩
    obtain ⟨hb, -⟩ := h
    exact hb

/-! ## C10: date-key validation is purely syntactic -/

/-- Whether a key string parses (the way the source parses keys) to a real
calendar date.  Spec-side predicate used to express that syntactically
valid keys need not denote real days. -/
def IsRealDateKey (s : String) : Prop :=
  match splitDash s.data with
  | [yS, mS, dS] => ValidCivil (jsNumber yS) (jsNumber mS) (jsNumber dS)
  | _ => False

instance (s : String) : Decidable (IsRealDateKey s) := by
  unfold IsRealDateKey
  rcases splitDash s.data with _ | ⟨a, _ | ⟨b, _ | ⟨c, _ | _⟩⟩⟩ <;> infer_instance

/-- C10.  `isISODateKey` is a purely syntactic check, so `coerceSave`
accepts `"2024-99-99"` — a key that denotes no real calendar day and does
not survive a conversion round trip — both as `startDate` and as a key of
`taken`, storing it unchanged. -/
theorem coerceSave_syntactic_keys :
    isISODateKey (Json.str "2024-99-99") = true ∧
    isDateKeyStr "2024-99-99" = true ∧
    ¬ IsRealDateKey "2024-99-99" ∧
    toISODateKeyLocal (makeLocalNoonDateFromISO "2024-99-99") ≠ "2024-99-99" ∧
    coerceSave
      (Json.obj [("version", Json.num 2), ("startDate", Json.str "2024-99-99"),
        ("taken", Json.obj [("2024-99-99", Json.null)]), ("updatedAt", Json.num 5)]) 7 =
      some { startDate := "2024-99-99", taken := [("2024-99-99", none)], updatedAt := 5 } :=
  ⟨by decide, by decide, by decide, by decide, by decide⟩

/-! ## C3: coerceSave is total and rejects every malformed input -/

/-- The shape `coerceSave` demands before it builds a record: a structured
object, a string `startDate` passing `isISODateKey`, an object-typed
(truthy) `taken` field, and a recognized `version` discriminator. -/
def GoodShape (input : Json) : Prop :=
  isObjectLike input = true ∧
  (∃ sd, jsGet input "startDate" = some (Json.str sd) ∧ isDateKeyStr sd = true) ∧
  (∃ tr, jsGet input "taken" = some tr ∧ isObjectLike tr = true) ∧
  (jsGet input "version" = some (Json.num 2) ∨ jsGet input "version" = some (Json.num 1))

/-- C3.  `coerceSave` (a total function of its JSON input in this model —
it cannot throw) produces a record exactly on inputs of the accepted
shape; every malformed input — including `null`, `{}`, and arrays — yields
the invalid result `none`, never a partial record. -/
theorem coerceSave_total_malformed (input : Json) (now : Int) :
    ((∃ r, coerceSave input now = some r) ↔ GoodShape input) ∧
    coerceSave Json.null now = none ∧
    coerceSave (Json.obj []) now = none ∧
    coerceSave (Json.arr []) now = none := by
  refine ⟨⟨?_, ?_⟩, rfl, rfl, rfl⟩
  · rintro ⟨r, hr⟩
    unfold coerceSave at hr
    split at hr
    · exact absurd hr (by simp)
    next h1 =>
      have h1t : isObjectLike input = true := by
        revert h1; cases isObjectLike input <;> simp
      split at hr
      next sd hsd =>
        split at hr
        · exact absurd hr (by simp)
        next hks =>
          have hkt : isDateKeyStr sd = true := by
            revert hks; cases isDateKeyStr sd <;> simp
          split at hr
          next tr htr =>
            split at hr
            · exact absurd hr (by simp)
            next hto =>
              have htt : isObjectLike tr = true := by
                revert hto; cases isObjectLike tr <;> simp
              split at hr
              all_goals
                split at hr
                next hv => exact ⟨h1t, ⟨sd, hsd, hkt⟩, ⟨tr, htr, htt⟩, Or.inl hv⟩
                next hv => exact ⟨h1t, ⟨sd, hsd, hkt⟩, ⟨tr, htr, htt⟩, Or.inr hv⟩
                next => exact absurd hr (by simp)
          next => exact absurd hr (by simp)
      next => exact absurd hr (by simp)
  · rintro ⟨h1, ⟨sd, hsd, hkey⟩, ⟨tr, htr, htrobj⟩, hver⟩
    unfold coerceSave
    rw [if_neg (by rw [h1]; simp), hsd]
    dsimp only
    rw [if_neg (by rw [hkey]; simp), htr]
    dsimp only
    rw [if_neg (by rw [htrobj]; simp)]
    rcases hver with hv | hv
    · rw [hv]
      exact ⟨_, rfl⟩
    · rw [hv]
      exact ⟨_, rfl⟩

/-! ## C4: version-1 migration keeps exactly the literally-true entries -/

/-- Whether a JSON value is the literal `true`. -/
def jsIsTrue : Json → Bool
  | Json.bool true => true
  | _ => false

theorem jsAssign_not_mem {α : Type} (acc : List (String × α)) (k : String) (v : α)
    (h : k ∉ acc.map Prod.fst) : jsAssign acc k v = acc ++ [(k, v)] := by
  induction acc with
  | nil => rfl
  | cons p rest ih =>
    simp only [List.map_cons, List.mem_cons] at h
    push_neg at h
    unfold jsAssign
    rw [if_neg (fun he => h.1 he.symm), ih h.2]
    rfl

theorem foldV1_filter (l : List (String × Json)) (acc : List (String × Option Int))
    (hnd : (l.map Prod.fst).Nodup)
    (hdisj : ∀ k, k ∈ l.map Prod.fst → k ∉ acc.map Prod.fst) :
    l.foldl
      (fun acc p =>
        if isDateKeyStr p.1 = false then acc
        else
          match p.2 with
          | Json.bool true => jsAssign acc p.1 none
          | _ => acc)
      acc =
    acc ++ (l.filter (fun p => isDateKeyStr p.1 && jsIsTrue p.2)).map
      (fun p => (p.1, (none : Option Int))) := by
  induction l generalizing acc with
  | nil => simp
  | cons p rest ih =>
    obtain ⟨k, v⟩ := p
    simp only [List.map_cons, List.nodup_cons] at hnd
    obtain ⟨hk, hndr⟩ := hnd
    simp only [List.foldl_cons]
    by_cases hkey : isDateKeyStr k = false
    · rw [if_pos hkey]
      have hfilter : (isDateKeyStr k && jsIsTrue v) = false := by
        rw [hkey]; rfl
      rw [List.filter_cons_of_neg (by simp [hfilter])]
      exact ih acc hndr (fun k2 hk2 => hdisj k2 (List.mem_cons_of_mem _ hk2))
    · have hkeyt : isDateKeyStr k = true := by
        revert hkey; cases isDateKeyStr k <;> simp
      rw [if_neg hkey]
      cases v with
      | bool b =>
        cases b with
        | true =>
          have hassign : jsAssign acc k (none : Option Int) = acc ++ [(k, none)] :=
            jsAssign_not_mem acc k none (hdisj k (List.mem_cons_self _ _))
          rw [hassign]
          rw [List.filter_cons_of_pos (by simp [hkeyt, jsIsTrue])]
          rw [ih (acc ++ [(k, none)]) hndr ?_]
          · simp
          · intro k2 hk2
            simp only [List.map_append, List.mem_append, List.map_cons, List.map_nil,
              List.mem_singleton]
            rintro (h2 | h2)
            · exact hdisj k2 (List.mem_cons_of_mem _ hk2) h2
            · exact hk (h2 ▸ hk2)
        | false =>
          rw [List.filter_cons_of_neg (by simp [jsIsTrue])]
          exact ih acc hndr (fun k2 hk2 => hdisj k2 (List.mem_cons_of_mem _ hk2))
      | null =>
        rw [List.filter_cons_of_neg (by simp [jsIsTrue])]
        exact ih acc hndr (fun k2 hk2 => hdisj k2 (List.mem_cons_of_mem _ hk2))
      | num t =>
        rw [List.filter_cons_of_neg (by simp [jsIsTrue])]
        exact ih acc hndr (fun k2 hk2 => hdisj k2 (List.mem_cons_of_mem _ hk2))
      | str s2 =>
        rw [List.filter_cons_of_neg (by simp [jsIsTrue])]
        exact ih acc hndr (fun k2 hk2 => hdisj k2 (List.mem_cons_of_mem _ hk2))
      | arr xs =>
        rw [List.filter_cons_of_neg (by simp [jsIsTrue])]
        exact ih acc hndr (fun k2 hk2 => hdisj k2 (List.mem_cons_of_mem _ hk2))
      | obj fs =>
        rw [List.filter_cons_of_neg (by simp [jsIsTrue])]
        exact ih acc hndr (fun k2 hk2 => hdisj k2 (List.mem_cons_of_mem _ hk2))

/-- C4.  A version-1 input accepted by `coerceSave` migrates exactly the
`taken` entries whose value is literally `true` (and whose key is a valid
date key) to entries with the unknown-time marker `null`; every other
entry is dropped. -/
theorem coerceSave_v1_migration (input : Json) (now : Int) (r : SaveData) (tr : Json)
    (hv : jsGet input "version" = some (Json.num 1))
    (ht : jsGet input "taken" = some tr)
    (hnd : ((entriesOf tr).map Prod.fst).Nodup)
    (hc : coerceSave input now = some r) :
    r.taken = ((entriesOf tr).filter (fun p => isDateKeyStr p.1 && jsIsTrue p.2)).map
      (fun p => (p.1, (none : Option Int))) := by
  unfold coerceSave at hc
  split at hc
  · exact absurd hc (by simp)
  split at hc
  case _ sd hsd =>
    split at hc
    · exact absurd hc (by simp)
    split at hc
    case _ tr2 htr2 =>
      have htreq : tr2 = tr := by
        rw [ht] at htr2
        exact (Option.some.inj htr2).symm
      subst htreq
      split at hc
      · exact absurd hc (by simp)
      split at hc
      all_goals split at hc
      case _ hv2 =>
        rw [hv] at hv2
        exact absurd (Option.some.inj hv2) (by simp)
      case _ hv1 =>
        obtain rfl := Option.some.inj hc
        dsimp only
        rw [foldV1_filter _ [] hnd (by simp)]
        simp
      case _ => exact absurd hc (by simp)
      case _ hv2 =>
        rw [hv] at hv2
        exact absurd (Option.some.inj hv2) (by simp)
      case _ hv1 =>
        obtain rfl := Option.some.inj hc
        dsimp only
        rw [foldV1_filter _ [] hnd (by simp)]
        simp
      case _ => exact absurd hc (by simp)
    case _ => exact absurd hc (by simp)
  case _ => exact absurd hc (by simp)

/-- Witness for `coerceSave_v1_migration`: the spec's migration example,
`{version: 1, taken: {"2024-01-01": true, "2024-01-02": false}}`, migrates
to `taken == {"2024-01-01": null}`. -/
theorem coerceSave_v1_migration_witness :
    ({ startDate := "2024-03-05", taken := [("2024-01-01", none)], updatedAt := 3 } : SaveData).taken =
      ((entriesOf (Json.obj [("2024-01-01", Json.bool true), ("2024-01-02", Json.bool false)])).filter
        (fun p => isDateKeyStr p.1 && jsIsTrue p.2)).map (fun p => (p.1, (none : Option Int))) ∧
    ({ startDate := "2024-03-05", taken := [("2024-01-01", none)], updatedAt := 3 } : SaveData).taken =
      [("2024-01-01", none)] :=
  ⟨coerceSave_v1_migration
    (Json.obj [("version", Json.num 1), ("startDate", Json.str "2024-03-05"),
      ("taken", Json.obj [("2024-01-01", Json.bool true), ("2024-01-02", Json.bool false)]),
      ("updatedAt", Json.num 3)])
    0
    { startDate := "2024-03-05", taken := [("2024-01-01", none)], updatedAt := 3 }
    (Json.obj [("2024-01-01", Json.bool true), ("2024-01-02", Json.bool false)])
    rfl rfl (by decide) (by decide),
   by decide⟩

/-! ## C8: export-then-import round trip -/

/-- JSON encoding of a `TakenAt` value, as `JSON.stringify` writes it. -/
def encodeTakenAt : Option Int → Json
  | some t => Json.num t
  | none => Json.null

/-- JSON tree of the serialized record: the export path writes the current
record verbatim with `JSON.stringify`, and `JSON.parse` of that text
reproduces this tree. -/
def jsonOfSave (s : SaveData) : Json :=
  Json.obj
    [("version", Json.num 2),
     ("startDate", Json.str s.startDate),
     ("taken", Json.obj (s.taken.map (fun p => (p.1, encodeTakenAt p.2)))),
     ("updatedAt", Json.num s.updatedAt)]

theorem foldV2_decode (l : List (String × Option Int)) (acc : List (String × Option Int))
    (hvalid : ∀ p ∈ l, isDateKeyStr p.1 = true)
    (hnd : (l.map Prod.fst).Nodup)
    (hdisj : ∀ k, k ∈ l.map Prod.fst → k ∉ acc.map Prod.fst) :
    (l.map (fun p => (p.1, encodeTakenAt p.2))).foldl
      (fun acc p =>
        if isDateKeyStr p.1 = false then acc
        else
          match p.2 with
          | Json.num t => jsAssign acc p.1 (some t)
          | Json.null => jsAssign acc p.1 none
          | _ => acc)
      acc = acc ++ l := by
  induction l generalizing acc with
  | nil => simp
  | cons p rest ih =>
    obtain ⟨k, v⟩ := p
    simp only [List.map_cons, List.nodup_cons] at hnd
    obtain ⟨hk, hndr⟩ := hnd
    simp only [List.map_cons, List.foldl_cons]
    have hkeyt : isDateKeyStr k = true := hvalid (k, v) (List.mem_cons_self _ _)
    rw [if_neg (by rw [hkeyt]; simp)]
    have hassign : ∀ w : Option Int, jsAssign acc k w = acc ++ [(k, w)] :=
      fun w => jsAssign_not_mem acc k w (hdisj k (by simp))
    have hstep : (match (encodeTakenAt v : Json) with
        | Json.num t => jsAssign acc k (some t)
        | Json.null => jsAssign acc k none
        | _ => acc) = acc ++ [(k, v)] := by
      cases v with
      | some t => exact hassign (some t)
      | none => exact hassign none
    rw [hstep, ih (acc ++ [(k, v)])
      (fun q hq => hvalid q (List.mem_cons_of_mem _ hq)) hndr ?_]
    · simp
    · intro k2 hk2
      simp only [List.map_append, List.mem_append, List.map_cons, List.map_nil,
        List.mem_singleton]
      rintro (h2 | h2)
      · exact hdisj k2 (List.mem_cons_of_mem _ hk2) h2
      · exact hk (h2 ▸ hk2)

/-- C8.  For every valid current-version record — valid `startDate`, every
`taken` key a valid date key (with the pairwise-distinct keys every
JavaScript object has), numeric timestamps or `null` values, numeric
`updatedAt` — re-importing the serialized record restores it exactly:
`coerceSave (parse (serialize record)) = record`. -/
theorem export_import_roundtrip (s : SaveData) (now : Int)
    (hsd : isDateKeyStr s.startDate = true)
    (hkeys : ∀ p ∈ s.taken, isDateKeyStr p.1 = true)
    (hnd : (s.taken.map Prod.fst).Nodup) :
    coerceSave (jsonOfSave s) now = some s := by
  unfold coerceSave
  rw [if_neg (fun h => Bool.noConfusion h)]
  rw [show jsGet (jsonOfSave s) "startDate" = some (Json.str s.startDate) from rfl]
  dsimp only
  rw [if_neg (by rw [hsd]; simp)]
  rw [show jsGet (jsonOfSave s) "taken" =
    some (Json.obj (s.taken.map (fun p => (p.1, encodeTakenAt p.2)))) from rfl]
  dsimp only
  rw [if_neg (fun h => Bool.noConfusion h)]
  rw [show jsGet (jsonOfSave s) "updatedAt" = some (Json.num s.updatedAt) from rfl]
  rw [show jsGet (jsonOfSave s) "version" = some (Json.num 2) from rfl]
  dsimp only
  rw [show entriesOf (Json.obj (s.taken.map (fun p => (p.1, encodeTakenAt p.2)))) =
    s.taken.map (fun p => (p.1, encodeTakenAt p.2)) from rfl]
  rw [foldV2_decode s.taken [] hkeys hnd (by simp)]
  rfl

/-- Witness for `export_import_roundtrip` at a concrete valid record. -/
theorem export_import_roundtrip_witness :
    coerceSave (jsonOfSave
      { startDate := "2024-01-01",
        taken := [("2024-01-02", some 1717000000000), ("2024-01-03", none)],
        updatedAt := 1717000001000 }) 42 =
    some { startDate := "2024-01-01",
           taken := [("2024-01-02", some 1717000000000), ("2024-01-03", none)],
           updatedAt := 1717000001000 } :=
  export_import_roundtrip
    { startDate := "2024-01-01",
      taken := [("2024-01-02", some 1717000000000), ("2024-01-03", none)],
      updatedAt := 1717000001000 } 42
    (by decide) (by decide) (by decide)

/-! ## Calendar arithmetic: the conversion round trip

The next lemmas establish that `civilFromDays` inverts `daysFromCivil` on
real calendar dates.  They are proved layer by layer: the month layer
(`monthLayer`), the year-of-era layer (`yoeLayer`), and an era-separation
glue, each a bounded statement settled by case splitting and linear
arithmetic. -/

set_option maxHeartbeats 1000000

theorem validCivil_arith (y m d : Int) (h : ValidCivil y m d) :
    1 ≤ m ∧ m ≤ 12 ∧ 1 ≤ d ∧ d ≤ 31 ∧
    (m = 4 ∨ m = 6 ∨ m = 9 ∨ m = 11 → d ≤ 30) ∧
    (m = 2 → d ≤ 29 ∧ (d = 29 → y % 4 = 0 ∧ (y % 100 ≠ 0 ∨ y % 400 = 0))) := by
  obtain ⟨h1, h2, h3, h4⟩ := h
  unfold daysInMonth at h4
  split_ifs at h4 with hm2 hleap hm30
  · obtain ⟨l1, l2⟩ := hleap
    exact ⟨h1, h2, h3, by omega, by omega, fun _ => ⟨h4, fun _ => ⟨l1, l2⟩⟩⟩
  · simp only [isLeapYear, not_and_or, not_or] at hleap
    refine ⟨h1, h2, h3, by omega, by omega, fun _ => ⟨by omega, fun hd => ?_⟩⟩
    exfalso
    omega
  · exact ⟨h1, h2, h3, by omega, fun _ => h4, fun hm => by omega⟩
  · exact ⟨h1, h2, h3, h4, fun hm => by omega, fun hm => by omega⟩

/-- `daysFromCivil` with the January/February branch resolved. -/
theorem daysFromCivil_eq_low (y m d : Int) (hm1 : 1 ≤ m) (hm : m ≤ 2) :
    daysFromCivil y m d =
      (y - 1) / 400 * 146097 +
        ((y - 1 - (y - 1) / 400 * 400) * 365 + (y - 1 - (y - 1) / 400 * 400) / 4
          - (y - 1 - (y - 1) / 400 * 400) / 100 + ((153 * (m + 9) + 2) / 5 + d - 1)) - 719468 := by
  have i1 : (if m ≤ 2 then (1:Int) else 0) = 1 := if_pos hm
  have i2 : (if m > 2 then (-3:Int) else 9) = 9 := if_neg (by omega)
  simp only [daysFromCivil, i1, i2]

/-- `daysFromCivil` with the March-to-December branch resolved. -/
theorem daysFromCivil_eq_high (y m d : Int) (hm1 : m > 2) (hm : m ≤ 12) :
    daysFromCivil y m d =
      y / 400 * 146097 +
        ((y - y / 400 * 400) * 365 + (y - y / 400 * 400) / 4
          - (y - y / 400 * 400) / 100 + ((153 * (m + -3) + 2) / 5 + d - 1)) - 719468 := by
  have i1 : (if m ≤ 2 then (1:Int) else 0) = 0 := if_neg (by omega)
  have i2 : (if m > 2 then (-3:Int) else 9) = -3 := if_pos hm1
  simp only [daysFromCivil, i1, i2]
  ring_nf

theorem monthLayer (mp d : Int) (h0 : 0 ≤ mp) (h1 : mp ≤ 11) (hd1 : 1 ≤ d) (hd2 : d ≤ 31)
    (h30 : mp = 1 ∨ mp = 3 ∨ mp = 6 ∨ mp = 8 → d ≤ 30) (h29 : mp = 11 → d ≤ 29) :
    0 ≤ (153 * mp + 2) / 5 + d - 1 ∧
    (153 * mp + 2) / 5 + d - 1 ≤ 365 ∧
    ((153 * mp + 2) / 5 + d - 1 ≤ 364 ∨ ((153 * mp + 2) / 5 + d - 1 = 365 ∧ mp = 11 ∧ d = 29)) ∧
    (5 * ((153 * mp + 2) / 5 + d - 1) + 2) / 153 = mp ∧
    ((153 * mp + 2) / 5 + d - 1) - (153 * mp + 2) / 5 + 1 = d := by
  interval_cases mp <;> omega

theorem yoeLayer (yoe doy : Int) (h0 : 0 ≤ yoe) (h1 : yoe ≤ 399) (h2 : 0 ≤ doy)
    (h3 : doy ≤ 364 ∨ (doy ≤ 365 ∧ (yoe+1) % 4 = 0 ∧ ((yoe+1) % 100 ≠ 0 ∨ (yoe+1) % 400 = 0))) :
    0 ≤ yoe * 365 + yoe/4 - yoe/100 + doy ∧
    yoe * 365 + yoe/4 - yoe/100 + doy ≤ 146096 ∧
    ((yoe * 365 + yoe/4 - yoe/100 + doy) - (yoe * 365 + yoe/4 - yoe/100 + doy)/1460
      + (yoe * 365 + yoe/4 - yoe/100 + doy)/36524
      - (yoe * 365 + yoe/4 - yoe/100 + doy)/146096)/365 = yoe := by
  interval_cases yoe <;> omega

theorem roundtrip_core (era yoe mp d y m : Int)
    (hyoe0 : 0 ≤ yoe) (hyoe1 : yoe ≤ 399)
    (hmp0 : 0 ≤ mp) (hmp1 : mp ≤ 11) (hd1 : 1 ≤ d) (hd2 : d ≤ 31)
    (h30 : mp = 1 ∨ mp = 3 ∨ mp = 6 ∨ mp = 8 → d ≤ 30)
    (h29 : mp = 11 → d ≤ 29)
    (hleap : mp = 11 ∧ d = 29 → (yoe+1) % 4 = 0 ∧ ((yoe+1) % 100 ≠ 0 ∨ (yoe+1) % 400 = 0))
    (hy : y = era * 400 + yoe + (if 10 ≤ mp then 1 else 0))
    (hm : m = if 10 ≤ mp then mp - 9 else mp + 3) :
    civilFromDays (era * 146097 + (yoe * 365 + yoe / 4 - yoe / 100 + ((153 * mp + 2) / 5 + d - 1)) - 719468)
      = (y, m, d) := by
  obtain ⟨md0, md1, md2, md3, md4⟩ := monthLayer mp d hmp0 hmp1 hd1 hd2 h30 h29
  have hdoyb : (153 * mp + 2) / 5 + d - 1 ≤ 364 ∨
      ((153 * mp + 2) / 5 + d - 1 ≤ 365 ∧ (yoe+1) % 4 = 0 ∧ ((yoe+1) % 100 ≠ 0 ∨ (yoe+1) % 400 = 0)) := by
    rcases md2 with hc | ⟨hc, hmp11, hd29⟩
    · exact Or.inl hc
    · exact Or.inr ⟨by omega, hleap ⟨hmp11, hd29⟩⟩
  obtain ⟨ye0, ye1, ye2⟩ := yoeLayer yoe ((153 * mp + 2) / 5 + d - 1) hyoe0 hyoe1 md0 hdoyb
  set doy := (153 * mp + 2) / 5 + d - 1 with hdoy
  set doe := yoe * 365 + yoe / 4 - yoe / 100 + doy with hdoe
  simp only [civilFromDays]
  have e1 : era * 146097 + doe - 719468 + 719468 = era * 146097 + doe := by ring
  rw [e1]
  have e2 : (era * 146097 + doe) / 146097 = era := by omega
  rw [e2]
  have e3 : era * 146097 + doe - era * 146097 = doe := by ring
  rw [e3]
  rw [ye2]
  have e5 : doe - (365 * yoe + yoe / 4 - yoe / 100) = doy := by omega
  rw [e5]
  rw [md3]
  rw [md4]
  subst hy hm
  by_cases h10 : 10 ≤ mp
  · rw [if_pos h10, if_pos h10]
    have h9 : ¬ mp < 10 := by omega
    rw [if_neg h9]
    have hle : mp + -9 ≤ 2 := by omega
    rw [if_pos hle]
    refine Prod.ext ?_ (Prod.ext ?_ rfl) <;> simp <;> omega
  · rw [if_neg h10, if_neg h10]
    have h9 : mp < 10 := by omega
    rw [if_pos h9]
    have hle : ¬ (mp + 3 ≤ 2) := by omega
    rw [if_neg hle]
    refine Prod.ext ?_ (Prod.ext ?_ rfl) <;> simp <;> omega

/-- The conversion round trip: on real calendar dates, `civilFromDays`
inverts `daysFromCivil`. -/
theorem civil_roundtrip (y m d : Int) (h : ValidCivil y m d) :
    civilFromDays (daysFromCivil y m d) = (y, m, d) := by
  obtain ⟨h1, h2, h3, h4, h5, h6⟩ := validCivil_arith y m d h
  by_cases hm : m ≤ 2
  · rw [daysFromCivil_eq_low y m d h1 hm]
    have hcore := roundtrip_core ((y - 1) / 400) (y - 1 - (y - 1) / 400 * 400) (m + 9) d y m
      (by omega) (by omega) (by omega) (by omega) h3 h4
      (by omega)
      (by intro hmp11; exact (h6 (by omega)).1)
      (by intro ⟨hmp11, hd29⟩
          have hm2 : m = 2 := by omega
          obtain ⟨-, hl⟩ := h6 hm2
          obtain ⟨l1, l2⟩ := hl hd29
          constructor
          · omega
          · rcases l2 with l2 | l2
            · left; omega
            · right; omega)
      (by rw [if_pos (by omega : (10:Int) ≤ m + 9)]; omega)
      (by rw [if_pos (by omega : (10:Int) ≤ m + 9)]; omega)
    exact hcore
  · rw [daysFromCivil_eq_high y m d (by omega) h2]
    have hcore := roundtrip_core (y / 400) (y - y / 400 * 400) (m + -3) d y m
      (by omega) (by omega) (by omega) (by omega) h3 h4
      (by omega)
      (by omega)
      (by omega)
      (by rw [if_neg (by omega : ¬ (10:Int) ≤ m + -3)]; omega)
      (by rw [if_neg (by omega : ¬ (10:Int) ≤ m + -3)]; omega)
    exact hcore

/-! ## Successor and predecessor days, and the reverse round trip -/

/-- Validity of a civil-date triple. -/
def validTriple : Int × Int × Int → Prop
  | (y, m, d) => ValidCivil y m d

instance (c : Int × Int × Int) : Decidable (validTriple c) := by
  obtain ⟨y, m, d⟩ := c
  unfold validTriple
  infer_instance

/-- Day number of a civil-date triple. -/
def daysOfTriple : Int × Int × Int → Int
  | (y, m, d) => daysFromCivil y m d

/-- Calendar successor of a valid civil date. -/
def nextCivil : Int × Int × Int → Int × Int × Int
  | (y, m, d) =>
    if d < daysInMonth y m then (y, m, d + 1)
    else if m < 12 then (y, m + 1, 1)
    else (y + 1, 1, 1)

/-- Calendar predecessor of a valid civil date. -/
def prevCivil : Int × Int × Int → Int × Int × Int
  | (y, m, d) =>
    if 1 < d then (y, m, d - 1)
    else if 1 < m then (y, m - 1, daysInMonth y (m - 1))
    else (y - 1, 12, 31)

/-- Lexicographic (chronological) order on civil-date triples. -/
def civilLt (c1 c2 : Int × Int × Int) : Prop :=
  c1.1 < c2.1 ∨ (c1.1 = c2.1 ∧ (c1.2.1 < c2.2.1 ∨ (c1.2.1 = c2.2.1 ∧ c1.2.2 < c2.2.2)))

theorem daysInMonth_pos (y m : Int) : 1 ≤ daysInMonth y m := by
  unfold daysInMonth
  split_ifs <;> omega

theorem daysInMonth_le (y m : Int) : daysInMonth y m ≤ 31 := by
  unfold daysInMonth
  split_ifs <;> omega

theorem civilLt_day (y m d d2 : Int) (h : d < d2) : civilLt (y, m, d) (y, m, d2) := by
  unfold civilLt
  right
  exact ⟨rfl, Or.inr ⟨rfl, h⟩⟩

theorem civilLt_month (y m m2 d d2 : Int) (h : m < m2) : civilLt (y, m, d) (y, m2, d2) := by
  unfold civilLt
  right
  exact ⟨rfl, Or.inl h⟩

theorem civilLt_year (y y2 m m2 d d2 : Int) (h : y < y2) : civilLt (y, m, d) (y2, m2, d2) := by
  unfold civilLt
  exact Or.inl h

theorem nextCivil_spec (y m d : Int) (h : ValidCivil y m d) :
    validTriple (nextCivil (y, m, d)) ∧
    daysOfTriple (nextCivil (y, m, d)) = daysFromCivil y m d + 1 ∧
    civilLt (y, m, d) (nextCivil (y, m, d)) := by
  obtain ⟨h1, h2, h3, h4, h5, h6⟩ := validCivil_arith y m d h
  obtain ⟨-, -, -, hdim⟩ := h
  unfold nextCivil
  dsimp only
  by_cases hd : d < daysInMonth y m
  · rw [if_pos hd]
    refine ⟨⟨h1, h2, by omega, by omega⟩, ?_, civilLt_day y m d (d+1) (by omega)⟩
    show daysFromCivil y m (d + 1) = daysFromCivil y m d + 1
    by_cases hm2 : m ≤ 2
    · rw [daysFromCivil_eq_low y m (d+1) h1 hm2, daysFromCivil_eq_low y m d h1 hm2]
      omega
    · rw [daysFromCivil_eq_high y m (d+1) (by omega) h2,
        daysFromCivil_eq_high y m d (by omega) h2]
      omega
  · have hdd : d = daysInMonth y m := by omega
    by_cases hm12 : m < 12
    · rw [if_neg hd, if_pos hm12]
      refine ⟨⟨by omega, by omega, by omega, daysInMonth_pos y (m+1)⟩, ?_,
        civilLt_month y m (m+1) d 1 (by omega)⟩
      show daysFromCivil y (m + 1) 1 = daysFromCivil y m d + 1
      unfold daysInMonth at hdd
      split_ifs at hdd with hm2 hleap hm30
      · -- February of a leap year: d = 29
        subst hm2
        unfold isLeapYear at hleap
        rw [daysFromCivil_eq_high y (2+1) 1 (by omega) (by omega),
          daysFromCivil_eq_low y 2 d (by omega) (by omega)]
        omega
      · -- February of a common year: d = 28
        subst hm2
        simp only [isLeapYear, not_and_or, not_or] at hleap
        rw [daysFromCivil_eq_high y (2+1) 1 (by omega) (by omega),
          daysFromCivil_eq_low y 2 d (by omega) (by omega)]
        omega
      · -- 30-day months
        subst hdd
        rcases hm30 with hm | hm | hm | hm <;>
        · subst hm
          rw [daysFromCivil_eq_high _ _ 1 (by omega) (by omega),
            daysFromCivil_eq_high _ _ _ (by omega) (by omega)]
          omega
      · -- 31-day months other than December
        subst hdd
        by_cases hm1 : m = 1
        · subst hm1
          rw [daysFromCivil_eq_low y (1+1) 1 (by omega) (by omega),
            daysFromCivil_eq_low y 1 31 (by omega) (by omega)]
          omega
        · rw [daysFromCivil_eq_high y (m+1) 1 (by omega) (by omega),
            daysFromCivil_eq_high y m 31 (by omega) (by omega)]
          interval_cases m <;> omega
    · rw [if_neg hd, if_neg hm12]
      have hm' : m = 12 := by omega
      subst hm'
      have hd31 : d = 31 := by
        unfold daysInMonth at hdd
        norm_num at hdd
        exact hdd
      subst hd31
      refine ⟨⟨by omega, by omega, by omega, by rw [daysInMonth]; norm_num⟩, ?_,
        civilLt_year y (y+1) 12 1 31 1 (by omega)⟩
      show daysFromCivil (y + 1) 1 1 = daysFromCivil y 12 31 + 1
      rw [daysFromCivil_eq_low (y+1) 1 1 (by omega) (by omega),
        daysFromCivil_eq_high y 12 31 (by omega) (by omega)]
      omega

theorem prevCivil_spec (y m d : Int) (h : ValidCivil y m d) :
    validTriple (prevCivil (y, m, d)) ∧
    daysOfTriple (prevCivil (y, m, d)) = daysFromCivil y m d - 1 := by
  obtain ⟨h1, h2, h3, h4, h5, h6⟩ := validCivil_arith y m d h
  obtain ⟨-, -, -, hdim⟩ := h
  unfold prevCivil
  dsimp only
  by_cases hd : 1 < d
  · rw [if_pos hd]
    refine ⟨⟨h1, h2, by omega, by omega⟩, ?_⟩
    show daysFromCivil y m (d - 1) = daysFromCivil y m d - 1
    by_cases hm2 : m ≤ 2
    · rw [daysFromCivil_eq_low y m (d-1) h1 hm2, daysFromCivil_eq_low y m d h1 hm2]
      omega
    · rw [daysFromCivil_eq_high y m (d-1) (by omega) h2,
        daysFromCivil_eq_high y m d (by omega) h2]
      omega
  · have hd1 : d = 1 := by omega
    subst hd1
    by_cases hm1 : 1 < m
    · rw [if_neg hd, if_pos hm1]
      refine ⟨⟨by omega, by omega, daysInMonth_pos y (m-1), by omega⟩, ?_⟩
      show daysFromCivil y (m - 1) (daysInMonth y (m - 1)) = daysFromCivil y m 1 - 1
      by_cases hm3 : m = 3
      · -- predecessor of March 1 is the last day of February
        subst hm3
        unfold daysInMonth
        norm_num
        by_cases hleap : isLeapYear y
        · rw [if_pos hleap]
          unfold isLeapYear at hleap
          rw [daysFromCivil_eq_low y 2 29 (by omega) (by omega),
            daysFromCivil_eq_high y 3 1 (by omega) (by omega)]
          omega
        · rw [if_neg hleap]
          unfold isLeapYear at hleap
          simp only [not_and_or, not_or] at hleap
          rw [daysFromCivil_eq_low y 2 28 (by omega) (by omega),
            daysFromCivil_eq_high y 3 1 (by omega) (by omega)]
          omega
      · by_cases hm2 : m = 2
        · subst hm2
          rw [show daysInMonth y (2-1) = 31 from by rw [daysInMonth]; norm_num]
          rw [daysFromCivil_eq_low y (2-1) 31 (by omega) (by omega),
            daysFromCivil_eq_low y 2 1 (by omega) (by omega)]
          omega
        · -- both months are at least March
          have hm4 : 4 ≤ m := by omega
          have hdimv : daysInMonth y (m - 1) =
              if m - 1 = 4 ∨ m - 1 = 6 ∨ m - 1 = 9 ∨ m - 1 = 11 then 30 else 31 := by
            rw [daysInMonth, if_neg (by omega)]
          rw [hdimv]
          by_cases h30 : m - 1 = 4 ∨ m - 1 = 6 ∨ m - 1 = 9 ∨ m - 1 = 11
          · rw [if_pos h30]
            rw [daysFromCivil_eq_high y (m-1) 30 (by omega) (by omega),
              daysFromCivil_eq_high y m 1 (by omega) (by omega)]
            interval_cases m <;> omega
          · rw [if_neg h30]
            rw [daysFromCivil_eq_high y (m-1) 31 (by omega) (by omega),
              daysFromCivil_eq_high y m 1 (by omega) (by omega)]
            interval_cases m <;> omega
    · rw [if_neg hd, if_neg hm1]
      have hm' : m = 1 := by omega
      subst hm'
      refine ⟨⟨by omega, by omega, by omega, by rw [daysInMonth]; norm_num⟩, ?_⟩
      show daysFromCivil (y - 1) 12 31 = daysFromCivil y 1 1 - 1
      rw [daysFromCivil_eq_high (y-1) 12 31 (by omega) (by omega),
        daysFromCivil_eq_low y 1 1 (by omega) (by omega)]
      omega

/-- Every integer is the day number of a real calendar date. -/
theorem exists_valid_triple_days (z : Int) :
    ∃ c : Int × Int × Int, validTriple c ∧ daysOfTriple c = z := by
  induction z using Int.induction_on with
  | hz => exact ⟨(1970, 1, 1), by decide, by decide⟩
  | hp i ih =>
    obtain ⟨⟨y, m, d⟩, hv, hd⟩ := ih
    obtain ⟨hv2, hd2, -⟩ := nextCivil_spec y m d hv
    refine ⟨nextCivil (y, m, d), hv2, ?_⟩
    rw [hd2]
    have hdd : daysFromCivil y m d = (i : Int) := hd
    omega
  | hn i ih =>
    obtain ⟨⟨y, m, d⟩, hv, hd⟩ := ih
    obtain ⟨hv2, hd2⟩ := prevCivil_spec y m d hv
    refine ⟨prevCivil (y, m, d), hv2, ?_⟩
    rw [hd2]
    have hdd : daysFromCivil y m d = -(i : Int) := hd
    omega

/-- Reverse round trip: `civilFromDays` always produces a real calendar
date whose day number is the input. -/
theorem civilFromDays_valid (z : Int) :
    validTriple (civilFromDays z) ∧ daysOfTriple (civilFromDays z) = z := by
  obtain ⟨⟨y, m, d⟩, hv, hd⟩ := exists_valid_triple_days z
  have hdz : daysFromCivil y m d = z := hd
  have hrt := civil_roundtrip y m d hv
  rw [hdz] at hrt
  rw [hrt]
  exact ⟨hv, hdz⟩

theorem civilFromDays_inj (z1 z2 : Int) (h : civilFromDays z1 = civilFromDays z2) : z1 = z2 := by
  have h1 := (civilFromDays_valid z1).2
  have h2 := (civilFromDays_valid z2).2
  rw [← h1, ← h2, h]

/-! ## Decimal strings: fuel elimination, value round trip, injectivity -/

theorem natDigitsGo_congr (f1 : Nat) : ∀ n, n < f1 → ∀ f2, n < f2 →
    natDigitsGo f1 n = natDigitsGo f2 n := by
  induction f1 with
  | zero => intro n hn; omega
  | succ f1 ih =>
    intro n hn f2 hf2
    cases f2 with
    | zero => omega
    | succ f2 =>
      simp only [natDigitsGo]
      by_cases h10 : n < 10
      · rw [if_pos h10, if_pos h10]
      · rw [if_neg h10, if_neg h10]
        have hlt : n / 10 < n := Nat.div_lt_self (by omega) (by omega)
        rw [ih (n / 10) (by omega) f2 (by omega)]

/-- Recursion equation for `natDigits` with the fuel eliminated. -/
theorem natDigits_eq (n : Nat) :
    natDigits n = if n < 10 then [digitChar n] else natDigits (n / 10) ++ [digitChar (n % 10)] := by
  unfold natDigits
  rw [show natDigitsGo (n + 1) n =
    if n < 10 then [digitChar n] else natDigitsGo n (n / 10) ++ [digitChar (n % 10)] from rfl]
  by_cases h10 : n < 10
  · rw [if_pos h10, if_pos h10]
  · rw [if_neg h10, if_neg h10]
    have hlt : n / 10 < n := Nat.div_lt_self (by omega) (by omega)
    rw [natDigitsGo_congr n (n / 10) (by omega) (n / 10 + 1) (by omega)]

theorem isDigitCh_digitChar (k : Nat) : isDigitCh (digitChar k) = true := by
  unfold digitChar
  split <;> decide

theorem digitChar_toNat (k : Nat) (h : k < 10) : (digitChar k).toNat = 48 + k := by
  interval_cases k <;> decide

theorem digitVal_digitChar (k : Nat) (h : k < 10) : digitVal (digitChar k) = k := by
  interval_cases k <;> decide

theorem digitChar_ne_dash (k : Nat) : digitChar k ≠ '-' := by
  unfold digitChar
  split <;> decide

theorem natDigits_ne_nil (n : Nat) : natDigits n ≠ [] := by
  rw [natDigits_eq]
  split <;> simp

theorem natDigits_all_digit (n : Nat) : ∀ c ∈ natDigits n, isDigitCh c = true := by
  induction n using Nat.strong_induction_on with
  | _ n ih =>
    rw [natDigits_eq]
    by_cases h10 : n < 10
    · rw [if_pos h10]
      intro c hc
      rw [List.mem_singleton] at hc
      rw [hc]
      exact isDigitCh_digitChar n
    · rw [if_neg h10]
      intro c hc
      rw [List.mem_append] at hc
      rcases hc with hc | hc
      · exact ih (n / 10) (Nat.div_lt_self (by omega) (by omega)) c hc
      · rw [List.mem_singleton] at hc
        rw [hc]
        exact isDigitCh_digitChar (n % 10)

theorem digitsToNat_append_single (l : List Char) (c : Char) :
    digitsToNat (l ++ [c]) = 10 * digitsToNat l + digitVal c := by
  simp [digitsToNat, List.foldl_append]

theorem digitsToNat_natDigits (n : Nat) : digitsToNat (natDigits n) = n := by
  induction n using Nat.strong_induction_on with
  | _ n ih =>
    rw [natDigits_eq]
    by_cases h10 : n < 10
    · rw [if_pos h10]
      show 10 * 0 + digitVal (digitChar n) = n
      rw [digitVal_digitChar n h10]
      omega
    · rw [if_neg h10, digitsToNat_append_single,
        ih (n / 10) (Nat.div_lt_self (by omega) (by omega)),
        digitVal_digitChar (n % 10) (by omega)]
      omega

theorem jsNumber_natDigits (n : Nat) : jsNumber (natDigits n) = n := by
  unfold jsNumber
  rw [if_pos ⟨natDigits_ne_nil n, List.all_eq_true.mpr (natDigits_all_digit n)⟩,
    digitsToNat_natDigits]

theorem natDigits_inj (n1 n2 : Nat) (h : natDigits n1 = natDigits n2) : n1 = n2 := by
  rw [← digitsToNat_natDigits n1, ← digitsToNat_natDigits n2, h]

theorem intToString_inj (i1 i2 : Int) (h : intToString i1 = intToString i2) : i1 = i2 := by
  have hd : (intToString i1).data = (intToString i2).data := by rw [h]
  unfold intToString at hd
  by_cases h1 : i1 < 0 <;> by_cases h2 : i2 < 0
  · rw [if_pos h1, if_pos h2] at hd
    simp only [List.cons.injEq] at hd
    have := natDigits_inj _ _ hd.2
    omega
  · rw [if_pos h1, if_neg h2] at hd
    exfalso
    obtain ⟨c, l, hc⟩ : ∃ c l, natDigits i2.toNat = c :: l := by
      rcases he : natDigits i2.toNat with - | ⟨c, l⟩
      · exact absurd he (natDigits_ne_nil _)
      · exact ⟨c, l, rfl⟩
    rw [hc] at hd
    simp only [List.cons.injEq] at hd
    have hdig := natDigits_all_digit i2.toNat c (by rw [hc]; exact List.mem_cons_self c l)
    rw [← hd.1] at hdig
    exact absurd hdig (by decide)
  · rw [if_neg h1, if_pos h2] at hd
    exfalso
    obtain ⟨c, l, hc⟩ : ∃ c l, natDigits i1.toNat = c :: l := by
      rcases he : natDigits i1.toNat with - | ⟨c, l⟩
      · exact absurd he (natDigits_ne_nil _)
      · exact ⟨c, l, rfl⟩
    rw [hc] at hd
    simp only [List.cons.injEq] at hd
    have hdig := natDigits_all_digit i1.toNat c (by rw [hc]; exact List.mem_cons_self c l)
    rw [hd.1] at hdig
    exact absurd hdig (by decide)
  · rw [if_neg h1, if_neg h2] at hd
    have := natDigits_inj _ _ hd
    omega

theorem natDigits_two (n : Nat) (h1 : 10 ≤ n) (h2 : n ≤ 99) :
    natDigits n = [digitChar (n / 10), digitChar (n % 10)] := by
  rw [natDigits_eq, if_neg (by omega), natDigits_eq, if_pos (by omega)]
  rfl

theorem natDigits_four (n : Nat) (h1 : 1000 ≤ n) (h2 : n ≤ 9999) :
    natDigits n =
      [digitChar (n / 1000), digitChar (n / 100 % 10), digitChar (n / 10 % 10), digitChar (n % 10)] := by
  rw [natDigits_eq, if_neg (by omega),
    natDigits_eq (n / 10), if_neg (by omega),
    show n / 10 / 10 = n / 100 from by omega,
    natDigits_eq (n / 100), if_neg (by omega),
    show n / 100 / 10 = n / 1000 from by omega,
    natDigits_eq (n / 1000), if_pos (by omega),
    show n / 100 % 10 = n / 100 % 10 from rfl]
  simp

theorem intToString_nonneg_data (i : Int) (h : 0 ≤ i) :
    (intToString i).data = natDigits i.toNat := by
  unfold intToString
  rw [if_neg (by omega)]

theorem pad2_data (m : Int) (h0 : 0 ≤ m) (h99 : m ≤ 99) :
    (pad2 m).data = [digitChar (m.toNat / 10), digitChar (m.toNat % 10)] := by
  unfold pad2
  dsimp only
  rw [intToString_nonneg_data m h0]
  by_cases h10 : m < 10
  · rw [show natDigits m.toNat = [digitChar m.toNat] from by
      rw [natDigits_eq, if_pos (by omega)]]
    rw [show m.toNat / 10 = 0 from by omega, show m.toNat % 10 = m.toNat from by omega]
    rfl
  · rw [natDigits_two m.toNat (by omega) (by omega)]
    rfl

/-- The string the source builds for a civil date:
`${y}-${pad2 m}-${pad2 d}`. -/
def keyStringOf (y m d : Int) : String :=
  intToString y ++ "-" ++ pad2 m ++ "-" ++ pad2 d

theorem keyStringOf_data (y m d : Int) :
    (keyStringOf y m d).data =
      (intToString y).data ++ '-' :: ((pad2 m).data ++ '-' :: (pad2 d).data) := by
  unfold keyStringOf
  simp [String.data_append]

theorem toISODateKeyLocal_eq (z : Int) :
    toISODateKeyLocal z =
      keyStringOf (civilFromDays z).1 (civilFromDays z).2.1 (civilFromDays z).2.2 := by
  unfold toISODateKeyLocal keyStringOf
  rcases h : civilFromDays z with ⟨y, m, d⟩
  rfl

theorem digit_ne_dash (c : Char) (h : isDigitCh c = true) : c ≠ '-' := by
  intro hc
  rw [hc] at h
  exact absurd h (by decide)

theorem splitDash_no_dash (l : List Char) (h : ∀ c ∈ l, c ≠ '-') : splitDash l = [l] := by
  induction l with
  | nil => rfl
  | cons c rest ih =>
    unfold splitDash
    rw [if_neg (h c (List.mem_cons_self c rest))]
    rw [ih (fun c2 hc2 => h c2 (List.mem_cons_of_mem c hc2))]

theorem splitDash_append (A rest : List Char) (hA : ∀ c ∈ A, c ≠ '-') :
    splitDash (A ++ '-' :: rest) = A :: splitDash rest := by
  induction A with
  | nil =>
    show splitDash ('-' :: rest) = [] :: splitDash rest
    simp [splitDash]
  | cons a A2 ih =>
    show splitDash (a :: (A2 ++ '-' :: rest)) = (a :: A2) :: splitDash rest
    simp only [splitDash]
    rw [if_neg (hA a (List.mem_cons_self a A2))]
    rw [ih (fun c hc => hA c (List.mem_cons_of_mem a hc))]

theorem pair_ne_dash (a b : Nat) : ∀ c ∈ [digitChar a, digitChar b], c ≠ '-' := by
  intro c hc
  have h2 : c = digitChar a ∨ c = digitChar b := by simpa using hc
  rcases h2 with rfl | rfl <;> exact digitChar_ne_dash _

theorem digitsToNat_pair (a b : Nat) (ha : a < 10) (hb : b < 10) :
    digitsToNat [digitChar a, digitChar b] = 10 * a + b := by
  show 10 * (10 * 0 + digitVal (digitChar a)) + digitVal (digitChar b) = 10 * a + b
  rw [digitVal_digitChar a ha, digitVal_digitChar b hb]
  omega

theorem jsNumber_pair (a b : Nat) (ha : a < 10) (hb : b < 10) :
    jsNumber [digitChar a, digitChar b] = 10 * a + b := by
  unfold jsNumber
  rw [if_pos ⟨by simp, by
    simp only [List.all_cons, List.all_nil, Bool.and_true, Bool.and_eq_true]
    exact ⟨isDigitCh_digitChar a, isDigitCh_digitChar b⟩⟩]
  rw [digitsToNat_pair a b ha hb]
  push_cast
  ring

theorem daysFromCivil_day_shift (y m d : Int) (h1 : 1 ≤ m) (h2 : m ≤ 12) :
    daysFromCivil y m 1 + (d - 1) = daysFromCivil y m d := by
  by_cases hm : m ≤ 2
  · rw [daysFromCivil_eq_low y m 1 h1 hm, daysFromCivil_eq_low y m d h1 hm]
    omega
  · rw [daysFromCivil_eq_high y m 1 (by omega) h2, daysFromCivil_eq_high y m d (by omega) h2]
    omega

/-- Parsing a canonically formatted key recovers its day number. -/
theorem makeLocalNoon_keyStringOf (y m d : Int) (hv : ValidCivil y m d)
    (hy1 : 1000 ≤ y) (hy2 : y ≤ 9999) :
    makeLocalNoonDateFromISO (keyStringOf y m d) = daysFromCivil y m d := by
  obtain ⟨hm1, hm2, hd1, hd2, -, -⟩ := validCivil_arith y m d hv
  unfold makeLocalNoonDateFromISO
  rw [keyStringOf_data, intToString_nonneg_data y (by omega),
    pad2_data m (by omega) (by omega), pad2_data d (by omega) (by omega)]
  rw [splitDash_append _ _ (fun c hc => digit_ne_dash c (natDigits_all_digit y.toNat c hc))]
  rw [splitDash_append _ _ (pair_ne_dash (m.toNat / 10) (m.toNat % 10))]
  rw [splitDash_no_dash _ (pair_ne_dash (d.toNat / 10) (d.toNat % 10))]
  dsimp only
  rw [jsNumber_natDigits y.toNat,
    jsNumber_pair (m.toNat / 10) (m.toNat % 10) (by omega) (by omega),
    jsNumber_pair (d.toNat / 10) (d.toNat % 10) (by omega) (by omega)]
  rw [show ((y.toNat : Int)) = y from by omega,
    show (10 : Int) * ((m.toNat / 10 : Nat) : Int) + ((m.toNat % 10 : Nat) : Int) = m from by omega,
    show (10 : Int) * ((d.toNat / 10 : Nat) : Int) + ((d.toNat % 10 : Nat) : Int) = d from by omega]
  unfold jsDateNoon
  rw [if_neg (by omega)]
  rw [show (m - 1) / 12 = 0 from by omega, show (m - 1) % 12 = m - 1 from by omega]
  dsimp only
  rw [show m - 1 + 1 = m from by ring]
  rw [show y + 0 = y from by ring]
  exact daysFromCivil_day_shift y m d hm1 hm2

/-! ## C7: key/instant conversion round trip -/

/-- A canonical date key: the formatted form of a real calendar day whose
year prints as four digits — exactly the keys `toISODateKeyLocal`
produces for dates the tracker handles. -/
def CanonicalKey (k : String) : Prop :=
  ∃ y m d, ValidCivil y m d ∧ 1000 ≤ y ∧ y ≤ 9999 ∧ k = keyStringOf y m d

/-- C7.  Converting a canonical date key to its local-noon instant and
back yields the key again. -/
theorem dateKey_roundtrip (k : String) (h : CanonicalKey k) :
    toISODateKeyLocal (makeLocalNoonDateFromISO k) = k := by
  obtain ⟨y, m, d, hv, h1, h2, rfl⟩ := h
  rw [makeLocalNoon_keyStringOf y m d hv h1 h2, toISODateKeyLocal_eq,
    civil_roundtrip y m d hv]

/-- Witness for `dateKey_roundtrip` at the key `"2024-06-01"`. -/
theorem dateKey_roundtrip_witness :
    toISODateKeyLocal (makeLocalNoonDateFromISO "2024-06-01") = "2024-06-01" :=
  dateKey_roundtrip "2024-06-01" ⟨2024, 6, 1, by decide, by decide, by decide, by decide⟩

/-! ## Injectivity of the key formatting -/

theorem digitChar_inj : ∀ a : Nat, a < 10 → ∀ b : Nat, b < 10 →
    digitChar a = digitChar b → a = b := by decide

theorem pad2_inj (m1 m2 : Int) (h1a : 0 ≤ m1) (h1b : m1 ≤ 99) (h2a : 0 ≤ m2) (h2b : m2 ≤ 99)
    (h : (pad2 m1).data = (pad2 m2).data) : m1 = m2 := by
  rw [pad2_data m1 h1a h1b, pad2_data m2 h2a h2b] at h
  simp only [List.cons.injEq, and_true] at h
  have e1 := digitChar_inj (m1.toNat / 10) (by omega) (m2.toNat / 10) (by omega) h.1
  have e2 := digitChar_inj (m1.toNat % 10) (by omega) (m2.toNat % 10) (by omega) h.2
  omega

theorem keyStringOf_inj (y1 m1 d1 y2 m2 d2 : Int)
    (hv1 : ValidCivil y1 m1 d1) (hv2 : ValidCivil y2 m2 d2)
    (h : keyStringOf y1 m1 d1 = keyStringOf y2 m2 d2) :
    y1 = y2 ∧ m1 = m2 ∧ d1 = d2 := by
  obtain ⟨a1, a2, a3, a4, -, -⟩ := validCivil_arith y1 m1 d1 hv1
  obtain ⟨b1, b2, b3, b4, -, -⟩ := validCivil_arith y2 m2 d2 hv2
  have hd : (keyStringOf y1 m1 d1).data = (keyStringOf y2 m2 d2).data := by rw [h]
  rw [keyStringOf_data, keyStringOf_data] at hd
  have hplen1 : ((pad2 m1).data ++ '-' :: (pad2 d1).data).length =
      ((pad2 m2).data ++ '-' :: (pad2 d2).data).length := by
    rw [pad2_data m1 (by omega) (by omega), pad2_data m2 (by omega) (by omega),
      pad2_data d1 (by omega) (by omega), pad2_data d2 (by omega) (by omega)]
    simp
  have hylen : (intToString y1).data.length = (intToString y2).data.length := by
    have := congrArg List.length hd
    simp only [List.length_append, List.length_cons, hplen1] at this
    omega
  obtain ⟨hy, htail⟩ := List.append_inj hd hylen
  have hy12 : y1 = y2 := by
    apply intToString_inj
    cases he1 : intToString y1
    cases he2 : intToString y2
    rw [he1, he2] at hy
    simp only at hy
    exact congrArg String.mk hy
  simp only [List.cons.injEq, true_and] at htail
  have hmlen : (pad2 m1).data.length = (pad2 m2).data.length := by
    rw [pad2_data m1 (by omega) (by omega), pad2_data m2 (by omega) (by omega)]
    simp
  obtain ⟨hm, hdtail⟩ := List.append_inj htail hmlen
  simp only [List.cons.injEq, true_and] at hdtail
  exact ⟨hy12, pad2_inj m1 m2 (by omega) (by omega) (by omega) (by omega) hm,
    pad2_inj d1 d2 (by omega) (by omega) (by omega) (by omega) hdtail⟩

/-- Distinct day numbers have distinct keys. -/
theorem toISODateKeyLocal_inj (z1 z2 : Int)
    (h : toISODateKeyLocal z1 = toISODateKeyLocal z2) : z1 = z2 := by
  have hv1 := (civilFromDays_valid z1).1
  have hv2 := (civilFromDays_valid z2).1
  rcases hc1 : civilFromDays z1 with ⟨y1, m1, d1⟩
  rcases hc2 : civilFromDays z2 with ⟨y2, m2, d2⟩
  rw [hc1] at hv1
  rw [hc2] at hv2
  rw [toISODateKeyLocal_eq, toISODateKeyLocal_eq, hc1, hc2] at h
  obtain ⟨ey, em, ed⟩ := keyStringOf_inj y1 m1 d1 y2 m2 d2 hv1 hv2 h
  apply civilFromDays_inj
  rw [hc1, hc2, ey, em, ed]

/-! ## C1: computeCurrentStreak follows the anchor algorithm -/

/-- The anchor day of the current-streak computation: today if taken,
otherwise the day before today. -/
def anchorOf (save : SaveData) (today : String) : Int :=
  if isTaken save today then makeLocalNoonDateFromISO today
  else addDaysLocalNoon (makeLocalNoonDateFromISO today) (-1)

/-- Walking back from any day, an untaken day is reached within
`save.taken.length` steps: the visited keys are pairwise distinct, and
every taken day contributes a distinct key of the finite `taken` map. -/
theorem exists_untaken (save : SaveData) (z0 : Int) :
    ∃ n : Nat, n ≤ save.taken.length ∧
      isTaken save (toISODateKeyLocal (z0 - n)) = false := by
  by_contra hno
  push_neg at hno
  have htaken : ∀ n : Nat, n ≤ save.taken.length →
      toISODateKeyLocal (z0 - n) ∈ save.taken.map Prod.fst := by
    intro n hn
    have h1 := hno n hn
    have h2 : isTaken save (toISODateKeyLocal (z0 - n)) = true := by
      revert h1
      cases isTaken save (toISODateKeyLocal (z0 - n)) <;> simp
    unfold isTaken at h2
    rw [List.any_eq_true] at h2
    obtain ⟨p, hp, hpe⟩ := h2
    rw [List.mem_map]
    exact ⟨p, hp, of_decide_eq_true hpe⟩
  classical
  have hfi : Function.Injective
      (fun i : Fin (save.taken.length + 1) => toISODateKeyLocal (z0 - (i.1 : Int))) := by
    intro i j hij
    have := toISODateKeyLocal_inj _ _ hij
    exact Fin.ext (by omega)
  have hsub : Finset.univ.image
      (fun i : Fin (save.taken.length + 1) => toISODateKeyLocal (z0 - (i.1 : Int))) ⊆
      (save.taken.map Prod.fst).toFinset := by
    intro s hs
    rw [Finset.mem_image] at hs
    obtain ⟨i, -, rfl⟩ := hs
    rw [List.mem_toFinset]
    exact htaken i.1 (by omega)
  have hcard := Finset.card_le_card hsub
  rw [Finset.card_image_of_injective _ hfi, Finset.card_univ, Fintype.card_fin] at hcard
  have hlen := (save.taken.map Prod.fst).toFinset_card_le
  simp only [List.length_map] at hlen
  omega

/-- The backward walk returns the length of the maximal consecutive taken
run when given enough fuel. -/
theorem streakWalk_eq (save : SaveData) :
    ∀ (fuel N : Nat) (z0 : Int), N < fuel →
      (∀ i : Nat, i < N → isTaken save (toISODateKeyLocal (z0 - i)) = true) →
      isTaken save (toISODateKeyLocal (z0 - N)) = false →
      streakWalk save fuel z0 = N := by
  intro fuel
  induction fuel with
  | zero => omega
  | succ f ih =>
    intro N z0 hN hbef hfalse
    cases N with
    | zero =>
      rw [show z0 - ((0:Nat) : Int) = z0 from by push_cast; ring] at hfalse
      unfold streakWalk
      rw [if_neg (by rw [hfalse]; simp)]
    | succ N2 =>
      have h0 : isTaken save (toISODateKeyLocal z0) = true := by
        have := hbef 0 (by omega)
        rwa [show z0 - ((0:Nat) : Int) = z0 from by push_cast; ring] at this
      unfold streakWalk
      rw [if_pos h0]
      rw [ih N2 (z0 - 1) (by omega) ?_ ?_]
      · intro i hi
        have := hbef (i+1) (by omega)
        rwa [show z0 - ((i+1 : Nat) : Int) = z0 - 1 - i from by push_cast; ring] at this
      · have := hfalse
        rwa [show z0 - ((N2+1 : Nat) : Int) = z0 - 1 - N2 from by push_cast; ring] at this

/-- C1.  `computeCurrentStreak` follows the anchor algorithm: with the
anchor equal to today if today is taken and otherwise the day before
today, the result is `{0, none, none}` when the anchor day is not taken;
otherwise it is the maximal consecutive run of taken days ending at the
anchor, with `stop` the anchor's key, `start` the key of the earliest day
of the run, and `length` the number of days of the run.  (In particular,
with an untaken today the anchor is yesterday, so a record whose
yesterday is taken keeps its streak with `stop` = yesterday, and a record
where neither today nor yesterday is taken reports length 0 regardless of
older history.) -/
theorem computeCurrentStreak_spec (save : SaveData) (today : String) :
    (isTaken save (toISODateKeyLocal (anchorOf save today)) = false →
       computeCurrentStreak save today = { length := 0, start := none, stop := none }) ∧
    (isTaken save (toISODateKeyLocal (anchorOf save today)) = true →
       ∃ n : Nat, 0 < n ∧
         (∀ i : Nat, i < n →
            isTaken save (toISODateKeyLocal (anchorOf save today - i)) = true) ∧
         isTaken save (toISODateKeyLocal (anchorOf save today - n)) = false ∧
         computeCurrentStreak save today =
           { length := n,
             start := some (toISODateKeyLocal (anchorOf save today - n + 1)),
             stop := some (toISODateKeyLocal (anchorOf save today)) }) := by
  unfold computeCurrentStreak
  dsimp only
  rw [show (if isTaken save today = true then makeLocalNoonDateFromISO today
      else addDaysLocalNoon (makeLocalNoonDateFromISO today) (-1)) = anchorOf save today from rfl]
  constructor
  · intro hg
    rw [if_pos hg]
  · intro hg
    rw [if_neg (by rw [hg]; simp)]
    obtain ⟨nb, hnb, hfb⟩ := exists_untaken save (anchorOf save today)
    have hex : ∃ n : Nat, isTaken save (toISODateKeyLocal (anchorOf save today - n)) = false :=
      ⟨nb, hfb⟩
    set N := Nat.find hex with hN
    have hNfalse : isTaken save (toISODateKeyLocal (anchorOf save today - N)) = false :=
      Nat.find_spec hex
    have hNmin : ∀ i : Nat, i < N →
        isTaken save (toISODateKeyLocal (anchorOf save today - i)) = true := by
      intro i hi
      have := Nat.find_min hex hi
      revert this
      cases isTaken save (toISODateKeyLocal (anchorOf save today - i)) <;> simp
    have hN0 : 0 < N := by
      rcases Nat.eq_zero_or_pos N with h0 | h0
      · exfalso
        rw [h0] at hNfalse
        rw [show anchorOf save today - ((0:Nat) : Int) = anchorOf save today from by
          push_cast; ring] at hNfalse
        rw [hg] at hNfalse
        exact absurd hNfalse (by simp)
      · exact h0
    have hNle : N ≤ save.taken.length := le_trans (Nat.find_min' hex hfb) hnb
    have hwalk : streakWalk save (save.taken.length + 1) (anchorOf save today) = N :=
      streakWalk_eq save (save.taken.length + 1) N (anchorOf save today)
        (by omega) hNmin hNfalse
    refine ⟨N, hN0, hNmin, hNfalse, ?_⟩
    rw [hwalk]
    rfl

/-- Witness for `computeCurrentStreak_spec`: the spec's gap scenarios.
With taken days 2024-06-01..03, querying on 2024-06-05 (anchor 06-04 not
taken) yields length 0; querying on 2024-06-04 (today not taken,
yesterday taken) keeps the streak with `stop` = "2024-06-03". -/
theorem computeCurrentStreak_spec_witness :
    computeCurrentStreak
      { startDate := "2024-06-01",
        taken := [("2024-06-01", none), ("2024-06-02", none), ("2024-06-03", none)],
        updatedAt := 0 } "2024-06-05" = { length := 0, start := none, stop := none } ∧
    computeCurrentStreak
      { startDate := "2024-06-01",
        taken := [("2024-06-01", none), ("2024-06-02", none), ("2024-06-03", none)],
        updatedAt := 0 } "2024-06-04" =
      { length := 3, start := some "2024-06-01", stop := some "2024-06-03" } :=
  ⟨(computeCurrentStreak_spec
      { startDate := "2024-06-01",
        taken := [("2024-06-01", none), ("2024-06-02", none), ("2024-06-03", none)],
        updatedAt := 0 } "2024-06-05").1 (by decide),
   by decide⟩

/-! ## Chronological order of day numbers versus key-string order -/

theorem char_toNat_inj (a b : Char) (h : a.toNat = b.toNat) : a = b := by
  have hv : a.val = b.val := UInt32.toNat.inj h
  exact Char.eq_of_val_eq hv

theorem civilLt_trans (c1 c2 c3 : Int × Int × Int)
    (h1 : civilLt c1 c2) (h2 : civilLt c2 c3) : civilLt c1 c3 := by
  unfold civilLt at *
  omega

theorem civilLt_irrefl (c : Int × Int × Int) (h : civilLt c c) : False := by
  unfold civilLt at h
  omega

theorem civilLt_asymm (c1 c2 : Int × Int × Int) (h1 : civilLt c1 c2) (h2 : civilLt c2 c1) :
    False := by
  unfold civilLt at *
  omega

/-- One day forward is the calendar successor. -/
theorem civilFromDays_succ (z : Int) :
    civilFromDays (z + 1) = nextCivil (civilFromDays z) := by
  obtain ⟨hv, hd⟩ := civilFromDays_valid z
  rcases hc : civilFromDays z with ⟨y, m, d⟩
  rw [hc] at hv hd
  obtain ⟨hvn, hdn, -⟩ := nextCivil_spec y m d hv
  rcases hn : nextCivil (y, m, d) with ⟨y2, m2, d2⟩
  rw [hn] at hvn hdn
  have hdz : daysFromCivil y m d = z := hd
  have hd2 : daysFromCivil y2 m2 d2 = z + 1 := by
    have : daysOfTriple (y2, m2, d2) = daysFromCivil y m d + 1 := hdn
    have h2 : daysFromCivil y2 m2 d2 = daysFromCivil y m d + 1 := this
    omega
  have := civil_roundtrip y2 m2 d2 hvn
  rw [hd2] at this
  rw [this]

theorem civilFromDays_lt_mono_aux (z : Int) (k : Nat) :
    civilLt (civilFromDays z) (civilFromDays (z + k + 1)) := by
  induction k with
  | zero =>
    rw [show z + ((0:Nat) : Int) + 1 = z + 1 from by push_cast; ring, civilFromDays_succ]
    obtain ⟨hv, -⟩ := civilFromDays_valid z
    rcases hc : civilFromDays z with ⟨y, m, d⟩
    rw [hc] at hv
    exact (nextCivil_spec y m d hv).2.2
  | succ k ih =>
    have hstep : civilLt (civilFromDays (z + k + 1)) (civilFromDays (z + k + 1 + 1)) := by
      rw [civilFromDays_succ (z + k + 1)]
      obtain ⟨hv, -⟩ := civilFromDays_valid (z + k + 1)
      rcases hc : civilFromDays (z + k + 1) with ⟨y, m, d⟩
      rw [hc] at hv
      exact (nextCivil_spec y m d hv).2.2
    have := civilLt_trans _ _ _ ih hstep
    rwa [show z + ((k:Int)) + 1 + 1 = z + ((k+1 : Nat) : Int) + 1 from by push_cast; ring] at this

/-- Chronological order of day numbers is the lexicographic order of their
civil dates. -/
theorem civilFromDays_lt_iff (z1 z2 : Int) :
    z1 < z2 ↔ civilLt (civilFromDays z1) (civilFromDays z2) := by
  constructor
  · intro h
    have := civilFromDays_lt_mono_aux z1 (z2 - z1 - 1).toNat
    rwa [show z1 + ((z2 - z1 - 1).toNat : Int) + 1 = z2 from by omega] at this
  · intro h
    by_contra hle
    push_neg at hle
    rcases eq_or_lt_of_le hle with heq | hlt
    · rw [heq] at h
      exact civilLt_irrefl _ h
    · exact civilLt_asymm _ _ h (by
        have := civilFromDays_lt_mono_aux z2 (z1 - z2 - 1).toNat
        rwa [show z2 + ((z1 - z2 - 1).toNat : Int) + 1 = z1 from by omega] at this)

theorem jsStrLt_cons_iff (x y : Char) (xs ys : List Char) :
    jsStrLt (x :: xs) (y :: ys) = true ↔
      (x.toNat < y.toNat ∨ (x.toNat = y.toNat ∧ jsStrLt xs ys = true)) := by
  show (if x.toNat < y.toNat then true
    else if y.toNat < x.toNat then false else jsStrLt xs ys) = true ↔ _
  split_ifs with h1 h2
  · simp only [true_iff]
    exact Or.inl h1
  · constructor
    · intro h
      exact absurd h (by simp)
    · intro h
      rcases h with h | ⟨h, -⟩ <;> omega
  · have hxy : x.toNat = y.toNat := by omega
    constructor
    · intro h
      exact Or.inr ⟨hxy, h⟩
    · intro h
      rcases h with h | ⟨-, h⟩
      · omega
      · exact h

theorem jsStrLt_same_head (c : Char) (xs ys : List Char) :
    jsStrLt (c :: xs) (c :: ys) = jsStrLt xs ys := by
  show (if c.toNat < c.toNat then true
    else if c.toNat < c.toNat then false else jsStrLt xs ys) = jsStrLt xs ys
  rw [if_neg (by omega), if_neg (by omega)]

theorem jsStrLt_append_eqlen (A1 : List Char) :
    ∀ (A2 : List Char) (B1 B2 : List Char), A1.length = A2.length →
      jsStrLt (A1 ++ B1) (A2 ++ B2) = if A1 = A2 then jsStrLt B1 B2 else jsStrLt A1 A2 := by
  induction A1 with
  | nil =>
    intro A2 B1 B2 hlen
    have h0 : A2 = [] := by
      cases A2 with
      | nil => rfl
      | cons a2 as2 => simp at hlen
    subst h0
    simp
  | cons a as ih =>
    intro A2 B1 B2 hlen
    cases A2 with
    | nil => simp at hlen
    | cons a2 as2 =>
      simp only [List.length_cons] at hlen
      by_cases hhead : a = a2
      · subst hhead
        simp only [List.cons_append, jsStrLt_same_head]
        rw [ih as2 B1 B2 (by omega)]
        by_cases htail : as = as2
        · subst htail
          simp
        · rw [if_neg htail, if_neg (by simp [htail])]
      · have hne : a.toNat ≠ a2.toNat := fun he => hhead (char_toNat_inj a a2 he)
        simp only [List.cons_append]
        rw [if_neg (by simp [hhead])]
        show (if a.toNat < a2.toNat then true
            else if a2.toNat < a.toNat then false else jsStrLt (as ++ B1) (as2 ++ B2)) =
          (if a.toNat < a2.toNat then true
            else if a2.toNat < a.toNat then false else jsStrLt as as2)
        by_cases hlt : a.toNat < a2.toNat
        · rw [if_pos hlt, if_pos hlt]
        · rw [if_neg hlt, if_neg hlt]
          have h2 : a2.toNat < a.toNat := by omega
          rw [if_pos h2, if_pos h2]

theorem civilLt_def (y1 m1 d1 y2 m2 d2 : Int) :
    civilLt (y1, m1, d1) (y2, m2, d2) ↔
      (y1 < y2 ∨ (y1 = y2 ∧ (m1 < m2 ∨ (m1 = m2 ∧ d1 < d2)))) := Iff.rfl

theorem jsStrLt_digits4 (n1 n2 : Nat) (h1a : 1000 ≤ n1) (h1b : n1 ≤ 9999)
    (h2a : 1000 ≤ n2) (h2b : n2 ≤ 9999) :
    (jsStrLt (natDigits n1) (natDigits n2) = true) ↔ n1 < n2 := by
  rw [natDigits_four n1 h1a h1b, natDigits_four n2 h2a h2b]
  simp only [jsStrLt_cons_iff, show jsStrLt ([] : List Char) [] = false from rfl,
    Bool.false_eq_true, and_false, or_false]
  rw [digitChar_toNat (n1 / 1000) (by omega), digitChar_toNat (n2 / 1000) (by omega),
    digitChar_toNat (n1 / 100 % 10) (by omega), digitChar_toNat (n2 / 100 % 10) (by omega),
    digitChar_toNat (n1 / 10 % 10) (by omega), digitChar_toNat (n2 / 10 % 10) (by omega),
    digitChar_toNat (n1 % 10) (by omega), digitChar_toNat (n2 % 10) (by omega)]
  omega

theorem jsStrLt_pad2 (m1 m2 : Int) (h1a : 0 ≤ m1) (h1b : m1 ≤ 99)
    (h2a : 0 ≤ m2) (h2b : m2 ≤ 99) :
    (jsStrLt (pad2 m1).data (pad2 m2).data = true) ↔ m1 < m2 := by
  rw [pad2_data m1 h1a h1b, pad2_data m2 h2a h2b]
  simp only [jsStrLt_cons_iff, show jsStrLt ([] : List Char) [] = false from rfl,
    Bool.false_eq_true, and_false, or_false]
  rw [digitChar_toNat (m1.toNat / 10) (by omega), digitChar_toNat (m2.toNat / 10) (by omega),
    digitChar_toNat (m1.toNat % 10) (by omega), digitChar_toNat (m2.toNat % 10) (by omega)]
  omega

/-- Key-string order agrees with chronological order on formatted dates
with four-digit years. -/
theorem keyStringOf_lt_iff (y1 m1 d1 y2 m2 d2 : Int)
    (hv1 : ValidCivil y1 m1 d1) (hv2 : ValidCivil y2 m2 d2)
    (hy1a : 1000 ≤ y1) (hy1b : y1 ≤ 9999) (hy2a : 1000 ≤ y2) (hy2b : y2 ≤ 9999) :
    (jsStrLt (keyStringOf y1 m1 d1).data (keyStringOf y2 m2 d2).data = true) ↔
      civilLt (y1, m1, d1) (y2, m2, d2) := by
  obtain ⟨a1, a2, a3, a4, -, -⟩ := validCivil_arith y1 m1 d1 hv1
  obtain ⟨b1, b2, b3, b4, -, -⟩ := validCivil_arith y2 m2 d2 hv2
  rw [keyStringOf_data, keyStringOf_data, intToString_nonneg_data y1 (by omega),
    intToString_nonneg_data y2 (by omega)]
  have hlen : (natDigits y1.toNat).length = (natDigits y2.toNat).length := by
    rw [natDigits_four y1.toNat (by omega) (by omega), natDigits_four y2.toNat (by omega) (by omega)]
    rfl
  rw [jsStrLt_append_eqlen _ _ _ _ hlen]
  by_cases hy : y1 = y2
  · rw [if_pos (by rw [hy]), jsStrLt_same_head]
    have hmlen : (pad2 m1).data.length = (pad2 m2).data.length := by
      rw [pad2_data m1 (by omega) (by omega), pad2_data m2 (by omega) (by omega)]
      rfl
    rw [jsStrLt_append_eqlen _ _ _ _ hmlen]
    by_cases hm : m1 = m2
    · rw [if_pos (by rw [hm]), jsStrLt_same_head,
        jsStrLt_pad2 d1 d2 (by omega) (by omega) (by omega) (by omega), civilLt_def]
      omega
    · have hpne : (pad2 m1).data ≠ (pad2 m2).data :=
        fun he => hm (pad2_inj m1 m2 (by omega) (by omega) (by omega) (by omega) he)
      rw [if_neg hpne, jsStrLt_pad2 m1 m2 (by omega) (by omega) (by omega) (by omega), civilLt_def]
      omega
  · have hnd : natDigits y1.toNat ≠ natDigits y2.toNat := by
      intro he
      have := natDigits_inj _ _ he
      omega
    rw [if_neg hnd, jsStrLt_digits4 y1.toNat y2.toNat (by omega) (by omega) (by omega) (by omega),
      civilLt_def]
    omega

/-- Key-string order of two day numbers (with four-digit years) is their
numeric order. -/
theorem toISODateKeyLocal_lt_iff (z1 z2 : Int)
    (h1a : 1000 ≤ (civilFromDays z1).1) (h1b : (civilFromDays z1).1 ≤ 9999)
    (h2a : 1000 ≤ (civilFromDays z2).1) (h2b : (civilFromDays z2).1 ≤ 9999) :
    (jsStrLt (toISODateKeyLocal z1).data (toISODateKeyLocal z2).data = true) ↔ z1 < z2 := by
  have hv1 := (civilFromDays_valid z1).1
  have hv2 := (civilFromDays_valid z2).1
  rcases hc1 : civilFromDays z1 with ⟨y1, m1, d1⟩
  rcases hc2 : civilFromDays z2 with ⟨y2, m2, d2⟩
  rw [hc1] at hv1 h1a h1b
  rw [hc2] at hv2 h2a h2b
  rw [toISODateKeyLocal_eq z1, toISODateKeyLocal_eq z2, hc1, hc2]
  rw [keyStringOf_lt_iff y1 m1 d1 y2 m2 d2 hv1 hv2 h1a h1b h2a h2b]
  rw [civilFromDays_lt_iff z1 z2, hc1, hc2]

/-! ## C5: buildHistoryKeysInclusive enumerates the range, newest first -/

/-- Day distance between two keys (the spec's `dayCount`): how many days
the end lies after the start. -/
def dayCount (startKey endKey : String) : Int :=
  makeLocalNoonDateFromISO endKey - makeLocalNoonDateFromISO startKey

theorem civil_year_mono (z1 z2 : Int) (h : z1 ≤ z2) :
    (civilFromDays z1).1 ≤ (civilFromDays z2).1 := by
  rcases eq_or_lt_of_le h with heq | hlt
  · rw [heq]
  · have := (civilFromDays_lt_iff z1 z2).mp hlt
    unfold civilLt at this
    omega

theorem historyLoop_eq (n : Nat) : ∀ (zs z : Int), (z + 1 - zs).toNat = n →
    historyLoop zs n z = (List.range n).map (fun i : Nat => toISODateKeyLocal (z - (i : Int))) := by
  induction n with
  | zero => intro zs z h; rfl
  | succ n ih =>
    intro zs z h
    unfold historyLoop
    rw [if_neg (by omega), ih zs (z - 1) (by omega), List.range_succ_eq_map n]
    simp only [List.map_cons, List.map_map]
    congr 1
    · rw [show z - ((0:Nat) : Int) = z from by push_cast; ring]
    · apply List.map_congr_left
      intro i hi
      show toISODateKeyLocal (z - 1 - i) = toISODateKeyLocal (z - (i.succ : Nat))
      congr 1
      push_cast
      ring

/-- A canonically formatted key is the key of its own day number. -/
theorem keyStringOf_eq_toISO (y m d : Int) (hv : ValidCivil y m d) :
    keyStringOf y m d = toISODateKeyLocal (daysFromCivil y m d) := by
  rw [toISODateKeyLocal_eq, civil_roundtrip y m d hv]

/-- C5.  For canonical keys: when `start ≤ end` (by `compareISODate`) the
produced list is exactly the keys of every day from `end` down to `start`
inclusive (the `i`-th element is the key of `end - i`), of length
`dayCount + 1`, strictly descending chronologically, containing the key
of every day in the range; when `start > end` the list is empty. -/
theorem buildHistory_spec (startKey endKey : String)
    (hs : CanonicalKey startKey) (he : CanonicalKey endKey) :
    (compareISODate startKey endKey ≤ 0 →
       0 ≤ dayCount startKey endKey ∧
       buildHistoryKeysInclusive startKey endKey =
         (List.range (dayCount startKey endKey + 1).toNat).map
           (fun i : Nat => toISODateKeyLocal (makeLocalNoonDateFromISO endKey - (i : Int))) ∧
       ((buildHistoryKeysInclusive startKey endKey).length : Int) = dayCount startKey endKey + 1 ∧
       (buildHistoryKeysInclusive startKey endKey).Pairwise
         (fun a b => compareISODate b a = -1) ∧
       (∀ z : Int, makeLocalNoonDateFromISO startKey ≤ z →
          z ≤ makeLocalNoonDateFromISO endKey →
          toISODateKeyLocal z ∈ buildHistoryKeysInclusive startKey endKey)) ∧
    (0 < compareISODate startKey endKey →
       buildHistoryKeysInclusive startKey endKey = []) := by
  obtain ⟨y1, m1, d1, hv1, hy1a, hy1b, rfl⟩ := hs
  obtain ⟨y2, m2, d2, hv2, hy2a, hy2b, rfl⟩ := he
  have hzs := makeLocalNoon_keyStringOf y1 m1 d1 hv1 hy1a hy1b
  have hze := makeLocalNoon_keyStringOf y2 m2 d2 hv2 hy2a hy2b
  have hyearS : (civilFromDays (daysFromCivil y1 m1 d1)).1 = y1 := by
    rw [civil_roundtrip y1 m1 d1 hv1]
  have hyearE : (civilFromDays (daysFromCivil y2 m2 d2)).1 = y2 := by
    rw [civil_roundtrip y2 m2 d2 hv2]
  constructor
  · intro hcmp
    -- start ≤ end in string order forces start ≤ end in day numbers
    have hnotlt : ¬ (jsStrLt (keyStringOf y2 m2 d2).data (keyStringOf y1 m1 d1).data = true) := by
      intro hlt
      unfold compareISODate at hcmp
      rw [if_neg ?_, if_pos hlt] at hcmp
      · omega
      · intro hlt2
        have h21 := (keyStringOf_lt_iff y2 m2 d2 y1 m1 d1 hv2 hv1 hy2a hy2b hy1a hy1b).mp hlt
        have h12 := (keyStringOf_lt_iff y1 m1 d1 y2 m2 d2 hv1 hv2 hy1a hy1b hy2a hy2b).mp hlt2
        exact civilLt_asymm _ _ h12 h21
    have hle : daysFromCivil y1 m1 d1 ≤ daysFromCivil y2 m2 d2 := by
      by_contra hgt
      push_neg at hgt
      apply hnotlt
      rw [keyStringOf_lt_iff y2 m2 d2 y1 m1 d1 hv2 hv1 hy2a hy2b hy1a hy1b]
      have := (civilFromDays_lt_iff (daysFromCivil y2 m2 d2) (daysFromCivil y1 m1 d1)).mp hgt
      rwa [civil_roundtrip y2 m2 d2 hv2, civil_roundtrip y1 m1 d1 hv1] at this
    have hdc : dayCount (keyStringOf y1 m1 d1) (keyStringOf y2 m2 d2) =
        daysFromCivil y2 m2 d2 - daysFromCivil y1 m1 d1 := by
      unfold dayCount
      rw [hzs, hze]
    have hbuild : buildHistoryKeysInclusive (keyStringOf y1 m1 d1) (keyStringOf y2 m2 d2) =
        (List.range (daysFromCivil y2 m2 d2 + 1 - daysFromCivil y1 m1 d1).toNat).map
          (fun i : Nat => toISODateKeyLocal (daysFromCivil y2 m2 d2 - (i : Int))) := by
      unfold buildHistoryKeysInclusive
      dsimp only
      rw [hzs, hze]
      exact historyLoop_eq _ _ _ rfl
    have hyearMid : ∀ z : Int, daysFromCivil y1 m1 d1 ≤ z → z ≤ daysFromCivil y2 m2 d2 →
        1000 ≤ (civilFromDays z).1 ∧ (civilFromDays z).1 ≤ 9999 := by
      intro z hz1 hz2
      have l1 := civil_year_mono _ _ hz1
      have l2 := civil_year_mono _ _ hz2
      rw [hyearS] at l1
      rw [hyearE] at l2
      omega
    refine ⟨by omega, ?_, ?_, ?_, ?_⟩
    · rw [hbuild, hdc, hze]
      congr 2
      omega
    · rw [hbuild]
      simp only [List.length_map, List.length_range]
      omega
    · rw [hbuild, List.pairwise_map]
      apply List.Pairwise.imp_of_mem ?_ (List.pairwise_lt_range _)
      intro i j hi hj hij
      rw [List.mem_range] at hi hj
      have hzi := hyearMid (daysFromCivil y2 m2 d2 - i) (by omega) (by omega)
      have hzj := hyearMid (daysFromCivil y2 m2 d2 - j) (by omega) (by omega)
      apply compareISODate_neg
      rw [toISODateKeyLocal_lt_iff _ _ hzj.1 hzj.2 hzi.1 hzi.2]
      omega
    · intro z hz1 hz2
      rw [hzs] at hz1
      rw [hze] at hz2
      rw [hbuild]
      rw [List.mem_map]
      refine ⟨(daysFromCivil y2 m2 d2 - z).toNat, ?_, ?_⟩
      · rw [List.mem_range]
        omega
      · congr 1
        omega
  · intro hcmp
    have hgt : jsStrLt (keyStringOf y2 m2 d2).data (keyStringOf y1 m1 d1).data = true := by
      unfold compareISODate at hcmp
      split_ifs at hcmp with hab hba
      · omega
      · exact hba
      · omega
    have hlt := (keyStringOf_lt_iff y2 m2 d2 y1 m1 d1 hv2 hv1 hy2a hy2b hy1a hy1b).mp hgt
    have hdays : daysFromCivil y2 m2 d2 < daysFromCivil y1 m1 d1 := by
      rw [civilFromDays_lt_iff]
      rwa [civil_roundtrip y2 m2 d2 hv2, civil_roundtrip y1 m1 d1 hv1]
    unfold buildHistoryKeysInclusive
    dsimp only
    rw [hzs, hze, show (daysFromCivil y2 m2 d2 + 1 - daysFromCivil y1 m1 d1).toNat = 0 from by omega]
    rfl

/-- Witness for `buildHistory_spec` at the range 2024-05-30..2024-06-01. -/
theorem buildHistory_spec_witness :
    buildHistoryKeysInclusive "2024-05-30" "2024-06-01" =
      (List.range (dayCount "2024-05-30" "2024-06-01" + 1).toNat).map
        (fun i : Nat => toISODateKeyLocal (makeLocalNoonDateFromISO "2024-06-01" - (i : Int))) ∧
    buildHistoryKeysInclusive "2024-05-30" "2024-06-01" =
      ["2024-06-01", "2024-05-31", "2024-05-30"] :=
  ⟨((buildHistory_spec "2024-05-30" "2024-06-01"
      ⟨2024, 5, 30, by decide, by decide, by decide, by decide⟩
      ⟨2024, 6, 1, by decide, by decide, by decide, by decide⟩).1 (by decide)).2.1,
   by decide⟩

/-! ## C2: computeBestStreak finds the maximal run, earliest-ending on ties -/

/-- The initial scan state of `computeBestStreak`. -/
def scanInit : BestScanState :=
  { bestLen := 0, bestStart := none, bestEnd := none, runLen := 0, runStart := none }

/-- The `n` day keys ending at day `z` in ascending order, oldest first:
`buildHistoryKeysInclusive` reversed produces exactly this list
(`historyLoop_reverse` below), and `computeBestStreak` scans it. -/
def upsAsc : Nat → Int → List String
  | 0, _ => []
  | n+1, z => upsAsc n (z - 1) ++ [toISODateKeyLocal z]

/-- Best consecutive-taken run length within the `n`-day window ending at
day `z`: the maximum over the runs ending at each day of the window, where
the run ending at `z` is `streakWalk` cut off at the window size. -/
def bestIn (save : SaveData) : Nat → Int → Nat
  | 0, _ => 0
  | n+1, z => max (bestIn save n (z - 1)) (streakWalk save (n + 1) z)

theorem historyLoop_reverse : ∀ (n : Nat) (zs z : Int), (z + 1 - zs).toNat = n →
    (historyLoop zs n z).reverse = upsAsc n z := by
  intro n
  induction n with
  | zero => intro zs z h; rfl
  | succ n ih =>
    intro zs z h
    unfold historyLoop
    rw [if_neg (by omega), List.reverse_cons, ih zs (z - 1) (by omega)]
    simp only [upsAsc]

theorem streakWalk_succ (save : SaveData) (f : Nat) (z : Int) :
    streakWalk save (f + 1) z =
      if isTaken save (toISODateKeyLocal z) = true
      then streakWalk save f (z - 1) + 1 else 0 := rfl

theorem streakWalk_le (save : SaveData) : ∀ (f : Nat) (z : Int), streakWalk save f z ≤ f := by
  intro f
  induction f with
  | zero =>
    intro z
    unfold streakWalk
    omega
  | succ f ih =>
    intro z
    unfold streakWalk
    by_cases h : isTaken save (toISODateKeyLocal z) = true
    · rw [if_pos h]
      have := ih (z - 1)
      omega
    · rw [if_neg h]
      omega

theorem streakWalk_ge (save : SaveData) : ∀ (m f : Nat) (z : Int), m ≤ f →
    (∀ w : Int, z - m < w → w ≤ z → isTaken save (toISODateKeyLocal w) = true) →
    m ≤ streakWalk save f z := by
  intro m
  induction m with
  | zero => intro f z _ _; exact Nat.zero_le _
  | succ m ih =>
    intro f z hmf hall
    cases f with
    | zero => omega
    | succ f =>
      have hz : isTaken save (toISODateKeyLocal z) = true :=
        hall z (by omega) (le_refl z)
      unfold streakWalk
      rw [if_pos hz]
      have hrec : m ≤ streakWalk save f (z - 1) := by
        apply ih f (z - 1) (by omega)
        intro w hw1 hw2
        exact hall w (by omega) (by omega)
      omega

theorem streakWalk_taken (save : SaveData) : ∀ (f : Nat) (z w : Int),
    z - streakWalk save f z < w → w ≤ z →
    isTaken save (toISODateKeyLocal w) = true := by
  intro f
  induction f with
  | zero =>
    intro z w h1 h2
    unfold streakWalk at h1
    omega
  | succ f ih =>
    intro z w h1 h2
    by_cases hz : isTaken save (toISODateKeyLocal z) = true
    · unfold streakWalk at h1
      rw [if_pos hz] at h1
      rcases eq_or_lt_of_le h2 with heq | hlt
      · rw [heq]
        exact hz
      · exact ih (z - 1) w (by omega) (by omega)
    · unfold streakWalk at h1
      rw [if_neg hz] at h1
      omega

theorem bestIn_ub (save : SaveData) : ∀ (n : Nat) (s z : Int), z = s + n →
    ∀ e : Int, s < e → e ≤ z →
    streakWalk save (e - s).toNat e ≤ bestIn save n z := by
  intro n
  induction n with
  | zero =>
    intro s z hz e he1 he2
    exfalso
    omega
  | succ n ih =>
    intro s z hz e he1 he2
    show streakWalk save (e - s).toNat e ≤ max (bestIn save n (z - 1)) (streakWalk save (n + 1) z)
    rcases eq_or_lt_of_le he2 with heq | hlt
    · rw [heq, show (z - s).toNat = n + 1 from by omega]
      exact le_max_right _ _
    · exact le_trans (ih s (z - 1) (by omega) e he1 (by omega)) (le_max_left _ _)

/-- Invariant of the `computeBestStreak` scan after processing the window
of days in `(s, z]` (with `z = s + n`), oldest first: `runLen`/`runStart`
describe the consecutive-taken run ending at `z`, `bestLen` is the best
run length in the window, and `bestStart`/`bestEnd` record the best run
ending at the earliest day where that maximum is attained (strict `>`
replacement). -/
def BestWindowInv (save : SaveData) (n : Nat) (s z : Int) (st : BestScanState) : Prop :=
  st.runLen = streakWalk save n z ∧
  st.runStart = (if streakWalk save n z = 0 then none
     else some (toISODateKeyLocal (z + 1 - (streakWalk save n z : Int)))) ∧
  st.bestLen = bestIn save n z ∧
  (bestIn save n z = 0 → st.bestStart = none ∧ st.bestEnd = none) ∧
  (0 < bestIn save n z → ∃ e : Int, s < e ∧ e ≤ z ∧
     streakWalk save (e - s).toNat e = bestIn save n z ∧
     (∀ e2 : Int, s < e2 → e2 < e →
        streakWalk save (e2 - s).toNat e2 < bestIn save n z) ∧
     st.bestEnd = some (toISODateKeyLocal e) ∧
     st.bestStart = some (toISODateKeyLocal (e + 1 - (bestIn save n z : Int))))

theorem bestFold_inv (save : SaveData) : ∀ (n : Nat) (s z : Int), z = s + n →
    BestWindowInv save n s z ((upsAsc n z).foldl (bestScanStep save) scanInit) := by
  intro n
  induction n with
  | zero =>
    intro s z hz
    exact ⟨rfl, (if_pos rfl).symm, rfl, fun _ => ⟨rfl, rfl⟩,
      fun h => absurd h (Nat.lt_irrefl 0)⟩
  | succ n ih =>
    intro s z hz
    have hstep : (upsAsc (n + 1) z).foldl (bestScanStep save) scanInit
        = bestScanStep save ((upsAsc n (z - 1)).foldl (bestScanStep save) scanInit)
            (toISODateKeyLocal z) := by
      simp only [upsAsc, List.foldl_append, List.foldl_cons, List.foldl_nil]
    have hold := ih s (z - 1) (by omega)
    rw [hstep]
    set stO := (upsAsc n (z - 1)).foldl (bestScanStep save) scanInit with hdef
    obtain ⟨h1, h2, h3, h4, h5⟩ := hold
    by_cases hT : isTaken save (toISODateKeyLocal z) = true
    · -- the new day is taken: the run extends by one
      have hsw : streakWalk save (n + 1) z = streakWalk save n (z - 1) + 1 := by
        rw [streakWalk_succ, if_pos hT]
      have hbi : bestIn save (n + 1) z
          = max (bestIn save n (z - 1)) (streakWalk save n (z - 1) + 1) := by
        show max (bestIn save n (z - 1)) (streakWalk save (n + 1) z) = _
        rw [hsw]
      have hrs : (if stO.runLen = 0 then some (toISODateKeyLocal z) else stO.runStart)
          = (if streakWalk save (n + 1) z = 0 then none
             else some (toISODateKeyLocal (z + 1 - (streakWalk save (n + 1) z : Int)))) := by
        rw [hsw, if_neg (show ¬ (streakWalk save n (z - 1) + 1 = 0) from by omega)]
        by_cases hR0 : stO.runLen = 0
        · rw [if_pos hR0,
            show z + 1 - ((streakWalk save n (z - 1) + 1 : Nat) : Int) = z from by omega]
        · rw [if_neg hR0, h2, if_neg (by omega),
            show z - 1 + 1 - (streakWalk save n (z - 1) : Int)
              = z + 1 - ((streakWalk save n (z - 1) + 1 : Nat) : Int) from by push_cast; ring]
      unfold bestScanStep
      rw [if_pos hT]
      dsimp only
      by_cases hgt : stO.runLen + 1 > stO.bestLen
      · -- strict improvement: the best run is replaced by the current run
        rw [if_pos hgt]
        unfold BestWindowInv
        dsimp only
        refine ⟨?_, ?_, ?_, ?_, ?_⟩
        · rw [hsw, h1]
        · exact hrs
        · rw [hbi, h1]
          exact (max_eq_right (by omega)).symm
        · intro h0
          exfalso
          rw [hbi] at h0
          have hmx := le_max_right (bestIn save n (z - 1)) (streakWalk save n (z - 1) + 1)
          omega
        · intro hpos
          have hbv : bestIn save (n + 1) z = streakWalk save n (z - 1) + 1 := by
            rw [hbi]
            exact max_eq_right (by omega)
          refine ⟨z, by omega, le_refl z, ?_, ?_, rfl, ?_⟩
          · rw [show (z - s).toNat = n + 1 from by omega, hbi, hsw]
            exact (max_eq_right (by omega)).symm
          · intro e2 he2a he2b
            have hub := bestIn_ub save n s (z - 1) (by omega) e2 he2a (by omega)
            have hmx := le_max_right (bestIn save n (z - 1)) (streakWalk save n (z - 1) + 1)
            rw [hbi]
            omega
          · rw [hbv, hrs, hsw, if_neg (by omega)]
      · -- no improvement: best fields carried over
        rw [if_neg hgt]
        have hbv : bestIn save (n + 1) z = bestIn save n (z - 1) := by
          rw [hbi]
          exact max_eq_left (by omega)
        unfold BestWindowInv
        dsimp only
        refine ⟨?_, ?_, ?_, ?_, ?_⟩
        · rw [hsw, h1]
        · exact hrs
        · rw [hbv]
          exact h3
        · intro h0
          exfalso
          rw [hbv] at h0
          omega
        · intro hpos
          rw [hbv] at hpos
          obtain ⟨e, he1, he2, heq, hmin, hE, hS⟩ := h5 hpos
          rw [hbv]
          exact ⟨e, he1, by omega, heq, hmin, hE, hS⟩
    · -- the new day is not taken: the run resets, the best is kept
      have hsw : streakWalk save (n + 1) z = 0 := by
        rw [streakWalk_succ, if_neg hT]
      have hbi : bestIn save (n + 1) z = bestIn save n (z - 1) := by
        show max (bestIn save n (z - 1)) (streakWalk save (n + 1) z) = _
        rw [hsw]
        exact max_eq_left (Nat.zero_le _)
      unfold bestScanStep
      rw [if_neg hT]
      unfold BestWindowInv
      dsimp only
      refine ⟨?_, ?_, ?_, ?_, ?_⟩
      · rw [hsw]
      · rw [hsw, if_pos rfl]
      · rw [hbi]
        exact h3
      · intro h0
        rw [hbi] at h0
        exact h4 h0
      · intro hpos
        rw [hbi] at hpos
        obtain ⟨e, he1, he2, heq, hmin, hE, hS⟩ := h5 hpos
        rw [hbi]
        exact ⟨e, he1, by omega, heq, hmin, hE, hS⟩

/-- C2.  For canonical keys: when `start > end` (by `compareISODate`) the
result is `{length: 0, start: absent, end: absent}`; when `start ≤ end`
the returned length bounds every all-taken interval inside the range
(maximality), is `0` exactly when no day in the range is taken (with both
key fields absent), and when positive is achieved by an all-taken run
whose `end`/`start` keys are reported, such that no interval of the same
length ending strictly earlier is also an all-taken interval inside the
range — the first-occurring maximal run wins ties, because the scan
replaces the best only on strict `>`. -/
theorem computeBestStreak_spec (save : SaveData) (startKey endKey : String)
    (hs : CanonicalKey startKey) (he : CanonicalKey endKey) :
    (0 < compareISODate startKey endKey →
       computeBestStreak save startKey endKey = { length := 0, start := none, stop := none }) ∧
    (compareISODate startKey endKey ≤ 0 →
       ∃ M : Nat, ∃ S E : Option String,
         computeBestStreak save startKey endKey = { length := M, start := S, stop := E } ∧
         (∀ a b : Int, makeLocalNoonDateFromISO startKey ≤ a →
            b ≤ makeLocalNoonDateFromISO endKey → a ≤ b →
            (∀ w : Int, a ≤ w → w ≤ b → isTaken save (toISODateKeyLocal w) = true) →
            (b - a + 1).toNat ≤ M) ∧
         (M = 0 ↔ ∀ w : Int, makeLocalNoonDateFromISO startKey ≤ w →
             w ≤ makeLocalNoonDateFromISO endKey →
             isTaken save (toISODateKeyLocal w) = false) ∧
         (M = 0 → S = none ∧ E = none) ∧
         (0 < M → ∃ e : Int,
            makeLocalNoonDateFromISO startKey ≤ e + 1 - M ∧
            e ≤ makeLocalNoonDateFromISO endKey ∧
            E = some (toISODateKeyLocal e) ∧
            S = some (toISODateKeyLocal (e + 1 - (M : Int))) ∧
            (∀ w : Int, e + 1 - (M : Int) ≤ w → w ≤ e →
               isTaken save (toISODateKeyLocal w) = true) ∧
            (∀ e2 : Int, e2 < e →
               ¬ (makeLocalNoonDateFromISO startKey ≤ e2 + 1 - M ∧
                  (∀ w : Int, e2 + 1 - (M : Int) ≤ w → w ≤ e2 →
                     isTaken save (toISODateKeyLocal w) = true))))) := by
  obtain ⟨y1, m1, d1, hv1, hy1a, hy1b, rfl⟩ := hs
  obtain ⟨y2, m2, d2, hv2, hy2a, hy2b, rfl⟩ := he
  have hzs := makeLocalNoon_keyStringOf y1 m1 d1 hv1 hy1a hy1b
  have hze := makeLocalNoon_keyStringOf y2 m2 d2 hv2 hy2a hy2b
  constructor
  · -- start after end: the history list is empty and the scan returns the initial state
    intro hcmp
    have hgt : jsStrLt (keyStringOf y2 m2 d2).data (keyStringOf y1 m1 d1).data = true := by
      unfold compareISODate at hcmp
      split_ifs at hcmp with hab hba
      · omega
      · exact hba
      · omega
    have hlt := (keyStringOf_lt_iff y2 m2 d2 y1 m1 d1 hv2 hv1 hy2a hy2b hy1a hy1b).mp hgt
    have hdays : daysFromCivil y2 m2 d2 < daysFromCivil y1 m1 d1 := by
      rw [civilFromDays_lt_iff]
      rwa [civil_roundtrip y2 m2 d2 hv2, civil_roundtrip y1 m1 d1 hv1]
    unfold computeBestStreak buildHistoryKeysInclusive
    dsimp only
    rw [hzs, hze,
      show (daysFromCivil y2 m2 d2 + 1 - daysFromCivil y1 m1 d1).toNat = 0 from by omega]
    rfl
  · intro hcmp
    -- start ≤ end in string order forces start ≤ end in day numbers
    have hnotlt : ¬ (jsStrLt (keyStringOf y2 m2 d2).data (keyStringOf y1 m1 d1).data = true) := by
      intro hlt
      unfold compareISODate at hcmp
      rw [if_neg ?_, if_pos hlt] at hcmp
      · omega
      · intro hlt2
        have h21 := (keyStringOf_lt_iff y2 m2 d2 y1 m1 d1 hv2 hv1 hy2a hy2b hy1a hy1b).mp hlt
        have h12 := (keyStringOf_lt_iff y1 m1 d1 y2 m2 d2 hv1 hv2 hy1a hy1b hy2a hy2b).mp hlt2
        exact civilLt_asymm _ _ h12 h21
    have hle : daysFromCivil y1 m1 d1 ≤ daysFromCivil y2 m2 d2 := by
      by_contra hgt
      push_neg at hgt
      apply hnotlt
      rw [keyStringOf_lt_iff y2 m2 d2 y1 m1 d1 hv2 hv1 hy2a hy2b hy1a hy1b]
      have := (civilFromDays_lt_iff (daysFromCivil y2 m2 d2) (daysFromCivil y1 m1 d1)).mp hgt
      rwa [civil_roundtrip y2 m2 d2 hv2, civil_roundtrip y1 m1 d1 hv1] at this
    rw [hzs, hze]
    have hkey2 : (buildHistoryKeysInclusive (keyStringOf y1 m1 d1) (keyStringOf y2 m2 d2)).reverse
        = upsAsc ((daysFromCivil y2 m2 d2 + 1 - daysFromCivil y1 m1 d1).toNat)
            (daysFromCivil y2 m2 d2) := by
      unfold buildHistoryKeysInclusive
      dsimp only
      rw [hzs, hze]
      exact historyLoop_reverse _ _ _ rfl
    have hfold := bestFold_inv save
        ((daysFromCivil y2 m2 d2 + 1 - daysFromCivil y1 m1 d1).toNat)
        (daysFromCivil y1 m1 d1 - 1) (daysFromCivil y2 m2 d2) (by omega)
    set st := (upsAsc ((daysFromCivil y2 m2 d2 + 1 - daysFromCivil y1 m1 d1).toNat)
        (daysFromCivil y2 m2 d2)).foldl (bestScanStep save) scanInit with hstdef
    obtain ⟨h1, h2, h3, h4, h5⟩ := hfold
    have hunf : computeBestStreak save (keyStringOf y1 m1 d1) (keyStringOf y2 m2 d2) =
        { length := st.bestLen, start := st.bestStart, stop := st.bestEnd } := by
      rw [hstdef]
      unfold computeBestStreak
      dsimp only
      rw [hkey2]
      rfl
    refine ⟨bestIn save ((daysFromCivil y2 m2 d2 + 1 - daysFromCivil y1 m1 d1).toNat)
        (daysFromCivil y2 m2 d2), st.bestStart, st.bestEnd, ?_, ?_, ?_, ?_, ?_⟩
    · rw [hunf, h3]
    · -- maximality: every all-taken interval in range is bounded by the best length
      intro a b ha hb hab hall
      have hub := bestIn_ub save
          ((daysFromCivil y2 m2 d2 + 1 - daysFromCivil y1 m1 d1).toNat)
          (daysFromCivil y1 m1 d1 - 1) (daysFromCivil y2 m2 d2) (by omega) b (by omega) hb
      refine le_trans ?_ hub
      apply streakWalk_ge save ((b - a + 1).toNat)
          ((b - (daysFromCivil y1 m1 d1 - 1)).toNat) b (by omega)
      intro w hw1 hw2
      exact hall w (by omega) hw2
    · -- the best length is zero exactly when no day in range is taken
      constructor
      · intro hM0 w hw1 hw2
        cases hq : isTaken save (toISODateKeyLocal w) with
        | false => rfl
        | true =>
          exfalso
          have hone : 1 ≤ streakWalk save
              ((w - (daysFromCivil y1 m1 d1 - 1)).toNat) w := by
            apply streakWalk_ge save 1 ((w - (daysFromCivil y1 m1 d1 - 1)).toNat) w (by omega)
            intro v hv1 hv2
            rw [show v = w from by omega]
            exact hq
          have hub := bestIn_ub save
              ((daysFromCivil y2 m2 d2 + 1 - daysFromCivil y1 m1 d1).toNat)
              (daysFromCivil y1 m1 d1 - 1) (daysFromCivil y2 m2 d2) (by omega) w (by omega) hw2
          omega
      · intro hallf
        by_contra hM0
        have hpos : 0 < bestIn save
            ((daysFromCivil y2 m2 d2 + 1 - daysFromCivil y1 m1 d1).toNat)
            (daysFromCivil y2 m2 d2) := Nat.pos_of_ne_zero hM0
        obtain ⟨e, he1, he2, heq, hmin, hE, hS⟩ := h5 hpos
        have hTe : isTaken save (toISODateKeyLocal e) = true := by
          apply streakWalk_taken save ((e - (daysFromCivil y1 m1 d1 - 1)).toNat) e e ?_ (le_refl e)
          rw [heq]
          omega
        have hfe := hallf e (by omega) he2
        rw [hTe] at hfe
        exact Bool.noConfusion hfe
    · intro hM0
      exact h4 hM0
    · -- the positive case: the recorded run is all taken and earliest-ending among ties
      intro hM
      obtain ⟨e, he1, he2, heq, hmin, hE, hS⟩ := h5 hM
      have hfb := streakWalk_le save ((e - (daysFromCivil y1 m1 d1 - 1)).toNat) e
      rw [heq] at hfb
      refine ⟨e, by omega, he2, hE, hS, ?_, ?_⟩
      · intro w hw1 hw2
        apply streakWalk_taken save ((e - (daysFromCivil y1 m1 d1 - 1)).toNat) e w ?_ hw2
        rw [heq]
        omega
      · intro e2 hlt hcon
        obtain ⟨hge, hall2⟩ := hcon
        have hs2 : daysFromCivil y1 m1 d1 - 1 < e2 := by omega
        have hsg : bestIn save ((daysFromCivil y2 m2 d2 + 1 - daysFromCivil y1 m1 d1).toNat)
            (daysFromCivil y2 m2 d2)
            ≤ streakWalk save ((e2 - (daysFromCivil y1 m1 d1 - 1)).toNat) e2 := by
          apply streakWalk_ge save _ ((e2 - (daysFromCivil y1 m1 d1 - 1)).toNat) e2 (by omega)
          intro w hw1 hw2
          exact hall2 w (by omega) hw2
        have hlow := hmin e2 hs2 hlt
        omega

/-- Example record of the spec's tie scenario: taken on 2024-05-01 and
2024-05-03 with a gap on 2024-05-02. -/
def bestTieSave : SaveData :=
  { startDate := "2024-05-01"
    taken := [("2024-05-01", none), ("2024-05-03", none)]
    updatedAt := 0 }

/-- Witness for `computeBestStreak_spec`: with the range reversed the
result is empty, and on the spec's tie scenario the first maximal run
(2024-05-01 alone) wins. -/
theorem computeBestStreak_spec_witness :
    computeBestStreak bestTieSave "2024-05-03" "2024-05-01" =
      { length := 0, start := none, stop := none } ∧
    computeBestStreak bestTieSave "2024-05-01" "2024-05-03" =
      { length := 1, start := some "2024-05-01", stop := some "2024-05-01" } :=
  ⟨(computeBestStreak_spec bestTieSave "2024-05-03" "2024-05-01"
      ⟨2024, 5, 3, by decide, by decide, by decide, by decide⟩
      ⟨2024, 5, 1, by decide, by decide, by decide, by decide⟩).1 (by decide),
   by decide⟩
